import Mathlib

/-!
A verification development for `trello_weekly_report_to_telegram.py`.

The script computes the previous calendar week's window, fetches Trello
checklist-completion actions, builds a grouped report (title and body), and
delivers the text to Telegram in chunks produced by `textwrap.wrap`.

This file gives a shallow embedding of the script's logic:
* JSON-like Python values (`PyVal`) with Python `dict.get`, truthiness,
  equality and `str()` conversion, with attribute errors made explicit in
  an `Except` monad;
* the aware-datetime arithmetic of the window computation (a `pytz`-style
  zone is a function from UTC seconds to an offset in seconds; `datetime`
  arithmetic on an aware value keeps the attached fixed offset);
* `fmt_local`, including a model of `datetime.fromisoformat`;
* `build_report` (filtering, grouping, sorting, rendering);
* the chunking of `tg_send_html` via a model of `textwrap.wrap` with
  `replace_whitespace=False, drop_whitespace=False` (and the default
  `expand_tabs=True`), and the sequential chunk delivery loop.
-/

/-- Model of the JSON-decoded Python values that the script manipulates:
`None`, strings, lists and string-keyed dicts.  (The Trello fields the
script reads — `data`, `checkItem`, `state`, `name`, `card`, `id`,
`shortLink`, `date` — are strings or objects; numbers and booleans play no
role in any property below, so they are not modelled.) -/
inductive PyVal where
  | none
  | str (s : String)
  | list (xs : List PyVal)
  | dict (xs : List (String × PyVal))

mutual

/-- Python structural equality `==` on the modelled values. -/
def pyEq : PyVal → PyVal → Bool
  | .none, .none => true
  | .str a, .str b => a == b
  | .list as, .list bs => pyEqL as bs
  | .dict as, .dict bs => pyEqD as bs
  | _, _ => false

/-- Elementwise equality of Python lists. -/
def pyEqL : List PyVal → List PyVal → Bool
  | [], [] => true
  | a :: as, b :: bs => pyEq a b && pyEqL as bs
  | _, _ => false

/-- Elementwise equality of dict entry lists. -/
def pyEqD : List (String × PyVal) → List (String × PyVal) → Bool
  | [], [] => true
  | (k, a) :: as, (l, b) :: bs => k == l && pyEq a b && pyEqD as bs
  | _, _ => false

end

mutual

theorem pyEq_iff : ∀ a b : PyVal, pyEq a b = true ↔ a = b
  | .none, .none => by simp [pyEq]
  | .none, .str _ | .none, .list _ | .none, .dict _ => by simp [pyEq]
  | .str _, .none | .str _, .list _ | .str _, .dict _ => by simp [pyEq]
  | .list _, .none | .list _, .str _ | .list _, .dict _ => by simp [pyEq]
  | .dict _, .none | .dict _, .str _ | .dict _, .list _ => by simp [pyEq]
  | .str a, .str b => by simp [pyEq]
  | .list as, .list bs => by
      simp only [pyEq, pyEqL_iff as bs, PyVal.list.injEq]
  | .dict as, .dict bs => by
      simp only [pyEq, pyEqD_iff as bs, PyVal.dict.injEq]

theorem pyEqL_iff : ∀ as bs : List PyVal, pyEqL as bs = true ↔ as = bs
  | [], [] => by simp [pyEqL]
  | [], _ :: _ => by simp [pyEqL]
  | _ :: _, [] => by simp [pyEqL]
  | a :: as, b :: bs => by
      simp only [pyEqL, Bool.and_eq_true, pyEq_iff a b, pyEqL_iff as bs,
        List.cons.injEq]

theorem pyEqD_iff : ∀ as bs : List (String × PyVal), pyEqD as bs = true ↔ as = bs
  | [], [] => by simp [pyEqD]
  | [], _ :: _ => by simp [pyEqD]
  | _ :: _, [] => by simp [pyEqD]
  | (k, a) :: as, (l, b) :: bs => by
      simp only [pyEqD, Bool.and_eq_true, pyEq_iff a b, pyEqD_iff as bs,
        List.cons.injEq, Prod.mk.injEq, beq_iff_eq, and_assoc]

end

instance : DecidableEq PyVal := fun a b => decidable_of_iff _ (pyEq_iff a b)

/-- Python truthiness of the modelled values: `None`, the empty string, the
empty list and the empty dict are falsy, everything else is truthy. -/
def pyTruthy : PyVal → Bool
  | .none => false
  | .str s => !(s == "")
  | .list xs => !xs.isEmpty
  | .dict xs => !xs.isEmpty

/-- Python `a or b` on values: `a` when truthy, otherwise `b`. -/
def pyOr (a b : PyVal) : PyVal := if pyTruthy a then a else b

/-- The exceptions the embedded code can raise. -/
inductive PyErr where
  | attributeError
  | typeError
deriving DecidableEq

/-- Lookup in a dict entry list (first binding wins, as in a Python dict,
whose keys are unique anyway). -/
def dLookup (k : String) : List (String × PyVal) → Option PyVal
  | [] => Option.none
  | (l, v) :: rest => if l == k then some v else dLookup k rest

/-- Python `v.get(k, dflt)`: defined for dicts, an `AttributeError` on any
other value (e.g. `None.get(...)` or `"s".get(...)`). -/
def pyGet (v : PyVal) (k : String) (dflt : PyVal) : Except PyErr PyVal :=
  match v with
  | .dict xs => .ok ((dLookup k xs).getD dflt)
  | _ => .error .attributeError

/-- Python `v.get(k, dflt)` restricted to dicts (total helper used by the
reference predicates below). -/
def dGet (xs : List (String × PyVal)) (k : String) (dflt : PyVal) : PyVal :=
  (dLookup k xs).getD dflt

/-- Is the value a Python dict (`isinstance(v, dict)`)? -/
def isDict : PyVal → Bool
  | .dict _ => true
  | _ => false

/-- Simplified Python `repr` of a string: single-quoted, escaping backslash,
quote, newline, carriage return and tab.  Container rendering is never
evaluated in any theorem below; it exists only to make `str()` total. -/
def pyReprStrEsc : List Char → List Char
  | [] => []
  | c :: rest =>
    (if c = '\\' then ['\\', '\\']
     else if c = '\x27' then ['\\', '\x27']
     else if c = '\n' then ['\\', 'n']
     else if c = '\r' then ['\\', 'r']
     else if c = '\t' then ['\\', 't']
     else [c]) ++ pyReprStrEsc rest

/-- Simplified Python `repr` of a string value. -/
def pyReprStr (s : String) : String :=
  "\x27" ++ String.mk (pyReprStrEsc s.data) ++ "\x27"

mutual

/-- Python `repr` of a modelled value (simplified string escaping). -/
def pyReprV : PyVal → String
  | .none => "None"
  | .str s => pyReprStr s
  | .list xs => "[" ++ pyReprSeq xs ++ "]"
  | .dict xs => "\x7b" ++ pyReprEntries xs ++ "\x7d"

/-- Comma-joined `repr`s of list elements. -/
def pyReprSeq : List PyVal → String
  | [] => ""
  | [x] => pyReprV x
  | x :: rest => pyReprV x ++ ", " ++ pyReprSeq rest

/-- Comma-joined `repr`s of dict entries. -/
def pyReprEntries : List (String × PyVal) → String
  | [] => ""
  | [(k, v)] => pyReprStr k ++ ": " ++ pyReprV v
  | (k, v) :: rest => pyReprStr k ++ ": " ++ pyReprV v ++ ", " ++ pyReprEntries rest

end

/-- Python `str()` as used by f-string interpolation: identity on strings,
`"None"` for `None`, `repr`-style rendering for containers. -/
def pyStr : PyVal → String
  | .none => "None"
  | .str s => s
  | .list xs => pyReprV (.list xs)
  | .dict xs => pyReprV (.dict xs)

/-- Python `str.lower`, restricted to the alphabets that occur in this
program: ASCII `A`–`Z` and Cyrillic `А`–`Я`, `Ё`. -/
def pyLowerChar (c : Char) : Char :=
  if 'A' ≤ c ∧ c ≤ 'Z' then Char.ofNat (c.toNat + 32)
  else if 0x410 ≤ c.toNat ∧ c.toNat ≤ 0x42F then Char.ofNat (c.toNat + 32)
  else if c.toNat = 0x401 then Char.ofNat 0x451
  else c

/-- Python `str.lower` on a character list. -/
def pyLower (s : List Char) : List Char := s.map pyLowerChar

/-- The characters stripped by Python `str.strip()` (the ASCII whitespace
relevant to this program). -/
def isPyStripWs (c : Char) : Bool :=
  c = ' ' ∨ c = '\t' ∨ c = '\n' ∨ c = '\r' ∨ c = '\x0b' ∨ c = '\x0c'

/-- Python `str.strip()`: drop leading and trailing whitespace. -/
def pyStrip (s : List Char) : List Char :=
  ((s.dropWhile isPyStripWs).reverse.dropWhile isPyStripWs).reverse

/-- Python string `<`: lexicographic comparison by code point. -/
def strLt : List Char → List Char → Bool
  | _, [] => false
  | [], _ :: _ => true
  | a :: as, b :: bs =>
    if a.toNat < b.toNat then true
    else if b.toNat < a.toNat then false
    else strLt as bs

/-- Python string `<=` as used by `sorted` (ascending). -/
def strLe (a b : List Char) : Bool := !(strLt b a)

theorem strLt_irrefl : ∀ a : List Char, strLt a a = false
  | [] => rfl
  | c :: rest => by simp [strLt, strLt_irrefl rest]

theorem char_toNat_inj {a b : Char} (h : a.toNat = b.toNat) : a = b := by
  unfold Char.toNat at h
  exact Char.ext (UInt32.toNat.inj h)

theorem strLt_trans : ∀ a b c : List Char,
    strLt a b = true → strLt b c = true → strLt a c = true
  | _, [], _, h, _ => by simp [strLt] at h
  | _, _ :: _, [], _, h => by simp [strLt] at h
  | [], _ :: _, _ :: _, _, _ => by simp [strLt]
  | a :: as, b :: bs, c :: cs, h1, h2 => by
      by_cases hab : a.toNat < b.toNat
      · by_cases hbc : b.toNat < c.toNat
        · simp [strLt, show a.toNat < c.toNat by omega]
        · by_cases hcb : c.toNat < b.toNat
          · simp [strLt, hbc, hcb] at h2
          · simp [strLt, show a.toNat < c.toNat by omega]
      · by_cases hba : b.toNat < a.toNat
        · simp [strLt, hab, hba] at h1
        · simp only [strLt, hab, hba, if_false] at h1
          by_cases hbc : b.toNat < c.toNat
          · simp [strLt, show a.toNat < c.toNat by omega]
          · by_cases hcb : c.toNat < b.toNat
            · simp [strLt, hbc, hcb] at h2
            · simp only [strLt, hbc, hcb, if_false] at h2
              simp only [strLt, show ¬(a.toNat < c.toNat) by omega,
                show ¬(c.toNat < a.toNat) by omega, if_false]
              exact strLt_trans as bs cs h1 h2

theorem strLt_connex : ∀ a b : List Char,
    strLt a b = false → strLt b a = false → a = b
  | [], [], _, _ => rfl
  | [], _ :: _, h, _ => by simp [strLt] at h
  | _ :: _, [], _, h => by simp [strLt] at h
  | a :: as, b :: bs, h1, h2 => by
      by_cases hab : a.toNat < b.toNat
      · simp [strLt, hab] at h1
      · by_cases hba : b.toNat < a.toNat
        · simp [strLt, hba] at h2
        · simp only [strLt, hab, hba, if_false] at h1 h2
          have hc : a = b := char_toNat_inj (by omega)
          exact hc ▸ congrArg (a :: ·) (strLt_connex as bs h1 h2)

theorem strLe_total (a b : List Char) : (strLe a b || strLe b a) = true := by
  unfold strLe
  by_cases h1 : strLt b a = true
  · by_cases h2 : strLt a b = true
    · exact absurd (strLt_trans a b a h2 h1)
        (by simp [strLt_irrefl a])
    · simp [Bool.eq_false_iff.mpr h2]
  · simp [Bool.eq_false_iff.mpr h1]

theorem strLe_trans {a b c : List Char} (h1 : strLe a b = true)
    (h2 : strLe b c = true) : strLe a c = true := by
  unfold strLe at h1 h2 ⊢
  by_cases hca : strLt c a = true
  · by_cases hba : strLt b a = true
    · simp [hba] at h1
    · by_cases hcb : strLt c b = true
      · simp [hcb] at h2
      · have hab : b = a := strLt_connex b a (Bool.eq_false_iff.mpr hba)
          (by
            by_cases h : strLt a b = true
            · exact absurd (strLt_trans c a b hca h) hcb
            · exact Bool.eq_false_iff.mpr h)
        rw [← hab] at hca
        exact absurd hca hcb
  · simp [Bool.eq_false_iff.mpr hca]

theorem strLe_antisymm {a b : List Char} (h1 : strLe a b = true)
    (h2 : strLe b a = true) : a = b := by
  unfold strLe at h1 h2
  exact strLt_connex a b (by simpa using h2) (by simpa using h1)

/-- A `pytz` time zone, as the script's arithmetic observes it: a function
from a UTC instant (seconds since 1970-01-01 00:00 UTC) to the zone's UTC
offset in seconds at that instant. -/
def PyTz : Type := Int → Int

/-- An aware Python `datetime` at second precision: the wall-clock value
(seconds since 1970-01-01 00:00 counted in the attached offset) together
with the fixed UTC offset of the attached `tzinfo`.  `timedelta` arithmetic
and `.replace(...)` act on `wall` and keep `off`, exactly as Python
`datetime` arithmetic keeps the `tzinfo` object attached by `pytz`. -/
structure PyAware where
  wall : Int
  off : Int
deriving DecidableEq

/-- The UTC instant an aware datetime denotes. -/
def utcInstant (d : PyAware) : Int := d.wall - d.off

/-- `datetime.datetime.now(tz)`: the current instant localized by the zone
(`pytz.fromutc` localizes correctly), carrying the offset in force now. -/
def pyNow (tz : PyTz) (utcNow : Int) : PyAware :=
  ⟨utcNow + tz utcNow, tz utcNow⟩

/-- Python `datetime.weekday()` of the wall-clock date: Monday is `0`.
Day number `0` of the model (1970-01-01) was a Thursday, hence the `+ 3`. -/
def pyWeekday (d : PyAware) : Int := (d.wall / 86400 + 3) % 7

/-- `d - datetime.timedelta(days=n)`. -/
def pySubDays (d : PyAware) (n : Int) : PyAware := ⟨d.wall - n * 86400, d.off⟩

/-- `d.replace(hour=0, minute=0, second=0, microsecond=0)`. -/
def pyReplaceMidnight (d : PyAware) : PyAware :=
  ⟨(d.wall / 86400) * 86400, d.off⟩

/-- Line 29 of the script:
`(now - datetime.timedelta(days=now.weekday())).replace(hour=0, ...)`. -/
def mondayThisWeek (now : PyAware) : PyAware :=
  pyReplaceMidnight (pySubDays now (pyWeekday now))

/-- Line 30: `start = monday_this_week - datetime.timedelta(days=7)`. -/
def windowStart (now : PyAware) : PyAware := pySubDays (mondayThisWeek now) 7

/-- Line 31: `end = monday_this_week` (exclusive). -/
def windowEnd (now : PyAware) : PyAware := mondayThisWeek now

/-- The wall-clock reading that zone `tz` assigns to the UTC instant `u`. -/
def zoneWall (tz : PyTz) (u : Int) : Int := u + tz u

/-- A wall-clock value is midnight at the start of a Monday. -/
def isMondayMidnightWall (w : Int) : Prop :=
  w % 86400 = 0 ∧ (w / 86400 + 3) % 7 = 0

instance (w : Int) : Decidable (isMondayMidnightWall w) := by
  unfold isMondayMidnightWall; infer_instance

/-- Modelled from the spec: the board API filters fetched actions to those
with `since <= date < before` (the server side of `get_actions` is not part
of the repository).  The script passes `since = start`, `before = end`,
making the window half-open with `end` excluded. -/
def inWindow (now : PyAware) (t : Int) : Prop :=
  utcInstant (windowStart now) ≤ t ∧ t < utcInstant (windowEnd now)

/-- Proleptic-Gregorian date of a day number (days since 1970-01-01),
following the standard civil-from-days algorithm; all divisions are
Euclidean, which coincides with floor division here. -/
def civilFromDays (z0 : Int) : Int × Int × Int :=
  let z := z0 + 719468
  let era := z / 146097
  let doe := z - era * 146097
  let yoe := (doe - doe / 1460 + doe / 36524 - doe / 146096) / 365
  let y := yoe + era * 400
  let doy := doe - (365 * yoe + yoe / 4 - yoe / 100)
  let mp := (5 * doy + 2) / 153
  let d := doy - (153 * mp + 2) / 5 + 1
  let m := mp + (if mp < 10 then 3 else -9)
  (y + (if m ≤ 2 then 1 else 0), m, d)

/-- Day number (days since 1970-01-01) of a proleptic-Gregorian date;
inverse of `civilFromDays`. -/
def daysFromCivil (y m d : Int) : Int :=
  let y2 := y - (if m ≤ 2 then 1 else 0)
  let era := y2 / 400
  let yoe := y2 - era * 400
  let doy := (153 * (m + (if m > 2 then -3 else 9)) + 2) / 5 + d - 1
  let doe := yoe * 365 + yoe / 4 - yoe / 100 + doy
  era * 146097 + doe - 719468

/-- Zero-padded decimal rendering of a natural number to `w` digits. -/
def padNat (w : Nat) (n : Nat) : String :=
  let s := toString n
  String.mk (List.replicate (w - s.length) '0') ++ s

/-- Python `dt.strftime("%Y-%m-%d")` of an aware datetime (uses the wall
clock; the years arising here are in `1..9999`, so `toNat` is exact;
`%Y` is unpadded, as on glibc, where the script runs). -/
def strfDate (d : PyAware) : String :=
  let c := civilFromDays (d.wall / 86400)
  toString c.1.toNat ++ "-" ++ padNat 2 c.2.1.toNat ++ "-" ++ padNat 2 c.2.2.toNat

/-- Python `dt.strftime("%Y-%m-%d %H:%M")` of a wall-clock reading in
seconds. -/
def strfYMDHM (wall : Int) : String :=
  let days := wall / 86400
  let secs := wall % 86400
  let c := civilFromDays days
  toString c.1.toNat ++ "-" ++ padNat 2 c.2.1.toNat ++ "-" ++
    padNat 2 c.2.2.toNat ++ " " ++ padNat 2 (secs / 3600).toNat ++ ":" ++
    padNat 2 ((secs % 3600) / 60).toNat

/-- Is `c` an ASCII digit? -/
def isDigitCh (c : Char) : Bool := '0' ≤ c ∧ c ≤ '9'

/-- Numeric value of an ASCII digit. -/
def digitVal (c : Char) : Nat := c.toNat - 48

/-- Read exactly two digits. -/
def read2 : List Char → Option (Nat × List Char)
  | a :: b :: rest =>
    if isDigitCh a ∧ isDigitCh b then some (10 * digitVal a + digitVal b, rest)
    else Option.none
  | _ => Option.none

/-- Read exactly four digits. -/
def read4 : List Char → Option (Nat × List Char)
  | a :: b :: c :: d :: rest =>
    if isDigitCh a ∧ isDigitCh b ∧ isDigitCh c ∧ isDigitCh d then
      some (1000 * digitVal a + 100 * digitVal b + 10 * digitVal c + digitVal d, rest)
    else Option.none
  | _ => Option.none

/-- Consume one expected character. -/
def expectChar (c : Char) : List Char → Option (List Char)
  | x :: rest => if x = c then some rest else Option.none
  | [] => Option.none

/-- Gregorian leap year. -/
def isLeapYear (y : Int) : Bool := y % 4 = 0 ∧ (y % 100 ≠ 0 ∨ y % 400 = 0)

/-- Number of days in a month. -/
def daysInMonth (y m : Int) : Int :=
  if m = 2 then (if isLeapYear y then 29 else 28)
  else if m = 4 ∨ m = 6 ∨ m = 9 ∨ m = 11 then 30
  else 31

/-- Parse `HH:MM[:SS[.fff|.ffffff]]` as CPython's pre-3.11
`_parse_hh_mm_ss_ff` does (fractions must have exactly 3 or 6 digits and
are validated but discarded: they cannot affect a `%Y-%m-%d %H:%M`
rendering, since all offsets are whole seconds).  Returns the
seconds-in-day value and the unconsumed suffix. -/
def parseHMS (cs0 : List Char) : Option (Nat × List Char) := do
  let (hh, cs1) ← read2 cs0
  let cs2 ← expectChar ':' cs1
  let (mm, cs3) ← read2 cs2
  if hh > 23 ∨ mm > 59 then Option.none
  else
    match expectChar ':' cs3 with
    | Option.none => some (hh * 3600 + mm * 60, cs3)
    | some cs4 => do
      let (ss, cs5) ← read2 cs4
      if ss > 59 then Option.none
      else
        match cs5 with
        | '.' :: cs6 =>
          let digs := cs6.takeWhile isDigitCh
          if digs.length = 3 ∨ digs.length = 6 then
            some (hh * 3600 + mm * 60 + ss, cs6.drop digs.length)
          else Option.none
        | _ => some (hh * 3600 + mm * 60 + ss, cs5)

/-- Model of `datetime.datetime.fromisoformat` (CPython pre-3.11 grammar:
`YYYY-MM-DD`, then optionally any one separator character and
`HH:MM[:SS[.fff|.ffffff]]`, then optionally a `±HH:MM[:SS]` offset), at
second precision.  Returns the wall-clock seconds and the attached offset.
A string the grammar rejects yields `Option.none` — as does a *naive*
result (no offset): the script immediately calls `.astimezone(tz)`, which
for a naive datetime consults the ambient system time zone, an effect
outside this model; the script only ever receives offset-bearing Trello
timestamps.  -/
def pyFromIso (s : String) : Option (Int × Int) := do
  let cs := s.data
  let (y, cs1) ← read4 cs
  let cs2 ← expectChar '-' cs1
  let (m, cs3) ← read2 cs2
  let cs4 ← expectChar '-' cs3
  let (d, cs5) ← read2 cs4
  if y < 1 ∨ m < 1 ∨ m > 12 ∨ d < 1 ∨ (d : Int) > daysInMonth y m then
    Option.none
  else
    match cs5 with
    | [] => Option.none
    | _sep :: cs6 => do
      let (secs, cs7) ← parseHMS cs6
      match cs7 with
      | [] => Option.none
      | sgn :: cs8 =>
        if sgn = '+' ∨ sgn = '-' then do
          let (osecs, cs9) ← parseHMS cs8
          if cs9 = [] then
            some (daysFromCivil y m d * 86400 + secs,
              if sgn = '-' then -(osecs : Int) else (osecs : Int))
          else Option.none
        else Option.none

/-- Python `str.replace` for a one-character pattern: every occurrence of
`pat` becomes `repl` (the only use in the script is
`iso_str.replace("Z", "+00:00")`). -/
def pyReplaceChar (pat : Char) (repl : List Char) : List Char → List Char
  | [] => []
  | c :: rest =>
    (if c = pat then repl else [c]) ++ pyReplaceChar pat repl rest

/-- Lines 39–44, `fmt_local`: replace every `"Z"` by `"+00:00"`, parse,
convert to the display zone and format as `%Y-%m-%d %H:%M`; on failure
return the raw input string unchanged. -/
def fmtLocal (tz : PyTz) (s : String) : String :=
  match pyFromIso (String.mk (pyReplaceChar 'Z' "+00:00".data s.data)) with
  | Option.none => s
  | some (wall, off) => strfYMDHM (zoneWall tz (wall - off))

/-- `fmt_local` applied to an arbitrary value, as `build_report` does: a
non-string raises inside the `try` (`iso_str.replace` is an attribute
error), is caught, and the value itself is returned and then rendered by
the f-string via `str()`. -/
def fmtLocalPy (tz : PyTz) : PyVal → String
  | .str s => fmtLocal tz s
  | v => pyStr v

/-- `textwrap`'s whitespace set, `"\t\n\x0b\x0c\r "`. -/
def isPyTextWs (c : Char) : Bool :=
  c = '\t' ∨ c = '\n' ∨ c = '\x0b' ∨ c = '\x0c' ∨ c = '\r' ∨ c = ' '

/-- Python `str.expandtabs(tabsize)`: each tab becomes the spaces needed to
reach the next multiple of `tabsize`; newline and carriage return reset the
column.  Applied by `textwrap.wrap` because `expand_tabs` defaults to
`True` (the script does not override it). -/
def pyExpandTabs (tabsize : Nat) : Nat → List Char → List Char
  | _, [] => []
  | col, c :: cs =>
    if c = '\t' then
      if 0 < tabsize then
        List.replicate (tabsize - col % tabsize) ' ' ++
          pyExpandTabs tabsize (col + (tabsize - col % tabsize)) cs
      else pyExpandTabs tabsize col cs
    else if c = '\n' ∨ c = '\r' then c :: pyExpandTabs tabsize 0 cs
    else c :: pyExpandTabs tabsize (col + 1) cs

/-- `TextWrapper._split`, modelled as the partition of the text into
maximal runs of whitespace and of non-whitespace.  (CPython's `wordsep_re`
additionally cuts non-whitespace runs at hyphenation points; both versions
partition the text into non-empty chunks, which is all the line-assembly
stage and every property below depend on, and the hyphen handling of
`_handle_long_word` is modelled faithfully.) -/
def chunkSplitAux (cls : Bool) (cur : List Char) : List Char → List (List Char)
  | [] => [cur.reverse]
  | c :: cs =>
    if isPyTextWs c = cls then chunkSplitAux cls (c :: cur) cs
    else cur.reverse :: chunkSplitAux (isPyTextWs c) [c] cs

/-- Split a text into its maximal whitespace / non-whitespace runs. -/
def chunkSplit : List Char → List (List Char)
  | [] => []
  | c :: cs => chunkSplitAux (isPyTextWs c) [c] cs

/-- The greedy packing loop of `TextWrapper._wrap_chunks`: take chunks onto
the current line while the accumulated length stays within `width`.
Returns the chunks taken and the remainder. -/
def packChunks (width : Nat) : Nat → List (List Char) → (List (List Char) × List (List Char))
  | _, [] => ([], [])
  | curLen, c :: rest =>
    if curLen + c.length ≤ width then
      let p := packChunks width (curLen + c.length) rest
      (c :: p.1, p.2)
    else ([], c :: rest)

/-- `space_left` of `TextWrapper._handle_long_word`. -/
def hlwSpaceLeft (width curLen : Nat) : Nat :=
  if width < 1 then 1 else width - curLen

/-- Index of the last `-` in a character list (`str.rfind`). -/
def rfindHyphen : List Char → Option Nat
  | [] => Option.none
  | c :: rest =>
    match rfindHyphen rest with
    | some i => some (i + 1)
    | Option.none => if c = '-' then some 0 else Option.none

/-- The split position chosen by `TextWrapper._handle_long_word` with
`break_long_words=True, break_on_hyphens=True` (the defaults): `space_left`
unless a usable hyphen occurs earlier (last `-` before `space_left`,
at a positive index, with a non-hyphen somewhere before it). -/
def hlwEnd (spaceLeft : Nat) (chunk : List Char) : Nat :=
  if chunk.length > spaceLeft then
    match rfindHyphen (chunk.take spaceLeft) with
    | some h =>
      if 0 < h ∧ (chunk.take h).any (fun c => c ≠ '-') then h + 1 else spaceLeft
    | Option.none => spaceLeft
  else spaceLeft

/-- One iteration of the outer `while chunks:` loop of `_wrap_chunks` with
`drop_whitespace=False`, `max_lines=None` and empty indents: greedy
packing, then — when the next chunk alone exceeds the width — the long-word
break.  Returns the emitted line and the remaining chunks. -/
def takeLine (width : Nat) (chunks : List (List Char)) : (List Char × List (List Char)) :=
  match packChunks width 0 chunks with
  | (taken, []) => (taken.flatten, [])
  | (taken, c :: rest) =>
    if c.length > width then
      (taken.flatten ++ c.take (hlwEnd (hlwSpaceLeft width ((taken.map List.length).sum)) c),
       c.drop (hlwEnd (hlwSpaceLeft width ((taken.map List.length).sum)) c) :: rest)
    else (taken.flatten, c :: rest)

/-- Termination measure of the outer loop: total characters plus number of
chunks (each iteration consumes at least one character or one chunk). -/
def muChunks (chunks : List (List Char)) : Nat :=
  (chunks.map List.length).sum + chunks.length

/-- The outer loop of `_wrap_chunks`, driven by a fuel that bounds its
iteration count; `pyWrap` supplies `muChunks`, proved sufficient below. -/
def wrapChunksF (width : Nat) : Nat → List (List Char) → List (List Char)
  | _, [] => []
  | 0, _ :: _ => []
  | fuel + 1, c :: rest =>
    let p := takeLine width (c :: rest)
    p.1 :: wrapChunksF width fuel p.2

/-- `textwrap.wrap(text, width=width, replace_whitespace=False,
drop_whitespace=False)` (all other options at their defaults). -/
def pyWrap (width : Nat) (text : List Char) : List (List Char) :=
  let chunks := chunkSplit (pyExpandTabs 8 0 text)
  wrapChunksF width (muChunks chunks) chunks

/-- Line 99: the chunk list `tg_send_html` iterates over,
`textwrap.wrap(text, width=3500, replace_whitespace=False,
drop_whitespace=False)`. -/
def tgChunks (text : List Char) : List (List Char) := pyWrap 3500 text

/-- Lines 99–105: the sequential delivery loop.  `ok i` tells whether the
`i`-th `sendMessage` POST returns a success status.  The result is the list
of chunks for which a request was actually issued, in order, and a flag:
`true` when the loop ran to completion, `false` when `raise_for_status`
raised `requests.HTTPError` (the `DeliveryError` of the spec), which
aborts the loop — the failing request itself was issued, nothing after
it. -/
def tgSendLoop (ok : Nat → Bool) : Nat → List (List Char) → (List (List Char) × Bool)
  | _, [] => ([], true)
  | i, c :: rest =>
    if ok i then
      let p := tgSendLoop ok (i + 1) rest
      (c :: p.1, p.2)
    else ([c], false)

/-- Lines 97–105, `tg_send_html`: chunk the text and deliver sequentially. -/
def tgSendHtml (ok : Nat → Bool) (text : List Char) : List (List Char) × Bool :=
  tgSendLoop ok 0 (tgChunks text)

/-- Accumulator of the `build_report` scan (lines 62–63): the
`defaultdict(list)` `by_card` mapping `card_id` to `(date, item)` pairs in
insertion order of keys, and the dict `card_meta` mapping `card_id` to
`(card_name, card_url)`. -/
structure BRState where
  byCard : List (PyVal × List (PyVal × PyVal))
  cardMeta : List (PyVal × (PyVal × String))
deriving DecidableEq

/-- Association-list lookup with Python value equality. -/
def alLookup {β : Type} (k : PyVal) : List (PyVal × β) → Option β
  | [] => Option.none
  | (l, v) :: rest => if pyEq l k then some v else alLookup k rest

/-- `by_card[card_id].append(x)` on a `defaultdict(list)`: append to the
entry of an existing key, or insert the key at the end (Python dicts keep
insertion order). -/
def alAppendTo (k : PyVal) (x : PyVal × PyVal) :
    List (PyVal × List (PyVal × PyVal)) → List (PyVal × List (PyVal × PyVal))
  | [] => [(k, [x])]
  | (l, xs) :: rest =>
    if pyEq l k then (l, xs ++ [x]) :: rest else (l, xs) :: alAppendTo k x rest

/-- `card_meta[card_id] = v`: overwrite an existing key's value in place,
or insert at the end.  Every completion event of a card executes this, so
the value kept is the one from the **last** such event. -/
def alUpdate (k : PyVal) (v : PyVal × String) :
    List (PyVal × (PyVal × String)) → List (PyVal × (PyVal × String))
  | [] => [(k, v)]
  | (l, w) :: rest =>
    if pyEq l k then (l, v) :: rest else (l, w) :: alUpdate k v rest

/-- Whether a value can be a Python dict key.  Of the JSON-shaped values an
action carries, `None` and strings hash; a list or a dict raises
`TypeError: unhashable type` the moment it is used to index a dict. -/
def hashableKey : PyVal → Bool
  | .list _ => false
  | .dict _ => false
  | _ => true

/-- One iteration of the `for a in actions:` loop (lines 64–78).  Skips
non-dicts (line 65) and records whose checklist state is not
`"complete"` (line 69); raises where CPython would: `AttributeError` for
`.get` on a non-dict attribute value, and `TypeError` at
`by_card[card_id]` (line 77) when the card's `id` is an unhashable list
or dict. -/
def processAction (st : BRState) (a : PyVal) : Except PyErr BRState :=
  if isDict a then do
    let data ← pyGet a "data" (.dict [])
    let ci ← pyGet data "checkItem" (.dict [])
    let state ← pyGet ci "state" .none
    if ¬ pyEq state (.str "complete") then .ok st
    else do
      let itemName ← pyGet ci "name" (.str "")
      let card0 ← pyGet data "card" (.dict [])
      let card := pyOr card0 (.dict [])
      let cardId ← pyGet card "id" .none
      let cardName ← pyGet card "name" (.str "Без названия")
      let short ← pyGet card "shortLink" (.str "")
      let cardUrl :=
        if pyTruthy short then "https://trello.com/c/" ++ pyStr short else ""
      let date ← pyGet a "date" .none
      if hashableKey cardId then
        .ok ⟨alAppendTo cardId (date, itemName) st.byCard,
             alUpdate cardId (cardName, cardUrl) st.cardMeta⟩
      else .error .typeError
  else .ok st

/-- The whole scan of lines 62–78. -/
def buildState (actions : List PyVal) : Except PyErr BRState :=
  actions.foldlM processAction ⟨[], []⟩

/-- Stable insertion: place `x` before the first element not below it.
`stableSort` below is a stable sort, and a stable sort's output is uniquely
determined by the key order and the input order, so this models Python's
(stable) `sorted` exactly; it is structurally recursive, hence evaluates
inside the kernel. -/
def stableInsert {g : Type} (le : g → g → Bool) (x : g) : List g → List g
  | [] => [x]
  | y :: rest => if le x y then x :: y :: rest else y :: stableInsert le x rest

/-- Stable insertion sort (a model of Python `sorted`). -/
def stableSort {g : Type} (le : g → g → Bool) : List g → List g
  | [] => []
  | x :: rest => stableInsert le x (stableSort le rest)

/-- The card sort key of line 87: `(card_meta[cid][0] or "").lower()`.
A truthy non-string name raises (`.lower()` is an attribute error). -/
def cardSortKey (st : BRState) (cid : PyVal) : Except PyErr (List Char) :=
  match pyOr ((alLookup cid st.cardMeta).getD (.none, "")).1 (.str "") with
  | .str s => .ok (pyLower s.data)
  | _ => .error .attributeError

/-- Line 87, `sorted(by_card.keys(), key=...)` as decorate–sort: the key is
computed once per card (as `sorted` does), then the `(key, card_id)` pairs
are sorted by string order on the keys.  Python's sort is stable and so is
`List.mergeSort`. -/
def sortedCardKeys (st : BRState) : Except PyErr (List (List Char × PyVal)) := do
  let keyed ← st.byCard.mapM (fun p => do
    let k ← cardSortKey st p.1
    pure (k, p.1))
  pure (stableSort (fun a b => strLe a.1 b.1) keyed)

/-- The completion sort key of line 90: `x[0] or ""`.  In the model a
truthy non-string date raises `TypeError` eagerly; CPython raises it from
the first comparison of that key against a string instead, so the two
differ only when fewer than two list elements exist — no theorem below
relies on that corner. -/
def dateSortKey (x : PyVal × PyVal) : Except PyErr (List Char) :=
  match pyOr x.1 (.str "") with
  | .str s => .ok s.data
  | _ => .error .typeError

/-- Line 90, `sorted(by_card[card_id], key=lambda x: x[0] or "")` as
decorate–sort. -/
def sortedCompletions (comps : List (PyVal × PyVal)) :
    Except PyErr (List (List Char × (PyVal × PyVal))) := do
  let keyed ← comps.mapM (fun x => do
    let k ← dateSortKey x
    pure (k, x))
  pure (stableSort (fun a b => strLe a.1 b.1) keyed)

/-- Lines 88–92: the rendered block of one card — header line with URL and
name, one line per completion in sorted order, and the empty separator
line. -/
def renderCard (tz : PyTz) (st : BRState) (cid : PyVal) :
    Except PyErr (List String) := do
  let meta := (alLookup cid st.cardMeta).getD (.none, "")
  let comps := (alLookup cid st.byCard).getD []
  let sorted ← sortedCompletions comps
  pure (("🔹 <a href=\"" ++ meta.2 ++ "\">" ++ pyStr meta.1 ++ "</a>") ::
    (sorted.map (fun q => " — " ++ fmtLocalPy tz q.2.1 ++ " — " ++ pyStr q.2.2)
    ++ [""]))

/-- Lines 60–95, `build_report`: scan, title, empty case, render.  `startD`
and `endD` are the module-level `start` and `end`; `tz` the display zone
used by `fmt_local`. -/
def buildReport (startD endD : PyAware) (tz : PyTz) (actions : List PyVal) :
    Except PyErr (String × String) := do
  let st ← buildState actions
  let title := "Отчёт по выполненным чек-пунктам: " ++ strfDate startD ++
    " — " ++ strfDate (pySubDays endD 1)
  if st.byCard.isEmpty then
    pure (title, "За указанную неделю выполненных пунктов не найдено.")
  else do
    let keys ← sortedCardKeys st
    let lineLists ← keys.mapM (fun q => renderCard tz st q.2)
    pure (title,
      String.mk (pyStrip (String.intercalate "\n" lineLists.flatten).data))

/-- One completion record as the scan extracts it from a well-formed
action: parent-card key, raw timestamp, item name, card display name and
constructed URL. -/
structure Completion where
  cardId : PyVal
  date : PyVal
  item : PyVal
  name : PyVal
  url : String
deriving DecidableEq

/-- Reference extraction mirroring the success path of the scan: `some`
exactly for a dict action whose (defaulted) `data`, `checkItem` and
`card` fields have the dict shape and whose checklist state is
`"complete"`; `Option.none` for everything the loop skips (and for the
shapes on which the loop raises, which `benign` excludes). -/
def extractCompletion (a : PyVal) : Option Completion :=
  match a with
  | .dict xs =>
    match dGet xs "data" (.dict []) with
    | .dict ds =>
      match dGet ds "checkItem" (.dict []) with
      | .dict cs =>
        if dGet cs "state" .none = .str "complete" then
          match pyOr (dGet ds "card" (.dict [])) (.dict []) with
          | .dict rs =>
            some ⟨dGet rs "id" .none, dGet xs "date" .none,
              dGet cs "name" (.str ""), dGet rs "name" (.str "Без названия"),
              if pyTruthy (dGet rs "shortLink" (.str "")) then
                "https://trello.com/c/" ++ pyStr (dGet rs "shortLink" (.str ""))
              else ""⟩
          | _ => Option.none
        else Option.none
      | _ => Option.none
    | _ => Option.none
  | _ => Option.none

/-- An action whose attribute *shapes* keep `build_report` from raising an
`AttributeError` or a sort `TypeError`: either a non-dict (skipped at
line 65), or one whose defaulted `data` and `checkItem` fields are dicts
and which is either not `"complete"` (skipped at line 69) or has a
dict-shaped (or falsy) `card`, a card name that is a string whenever
truthy (needed by `.lower()` at line 87) and a date that is a string
whenever truthy (needed by the sort at line 90).  `benign` constrains
shapes only; it does not make the scan safe by itself — the card `id`
must additionally be hashable (line 77 raises `TypeError` on a list or
dict id), the separate condition `idOk` below. -/
def benign (a : PyVal) : Bool :=
  match a with
  | .dict xs =>
    match dGet xs "data" (.dict []) with
    | .dict ds =>
      match dGet ds "checkItem" (.dict []) with
      | .dict cs =>
        if dGet cs "state" .none = .str "complete" then
          match pyOr (dGet ds "card" (.dict [])) (.dict []) with
          | .dict rs =>
            (match pyOr (dGet rs "name" (.str "Без названия")) (.str "") with
             | .str _ => true
             | _ => false) &&
            (match pyOr (dGet xs "date" .none) (.str "") with
             | .str _ => true
             | _ => false)
          | _ => false
        else true
      | _ => false
    | _ => false
  | _ => true

/-- The state update one completion performs (lines 77–78). -/
def pushComp (st : BRState) (c : Completion) : BRState :=
  ⟨alAppendTo c.cardId (c.date, c.item) st.byCard,
   alUpdate c.cardId (c.name, c.url) st.cardMeta⟩

/-- The completions a list of actions contributes, in order. -/
def compsOf (actions : List PyVal) : List Completion :=
  actions.filterMap extractCompletion

/-- The scan state reached from a list of completions. -/
def stateOfComps (comps : List Completion) : BRState :=
  comps.foldl pushComp ⟨[], []⟩

/-- The `(date, item)` pairs of card `k`, in input order. -/
def compsFor (k : PyVal) (comps : List Completion) : List (PyVal × PyVal) :=
  (comps.filter (fun c => decide (c.cardId = k))).map (fun c => (c.date, c.item))

/-- Card keys in order of first occurrence (Python dict key order). -/
def firstKeys (comps : List Completion) : List PyVal :=
  comps.foldl (fun ks c => if c.cardId ∈ ks then ks else ks ++ [c.cardId]) []

/-- The `(name, url)` pair of the **last** completion of card `k`, the one
`card_meta` retains. -/
def metaFor (k : PyVal) (comps : List Completion) : Option (PyVal × String) :=
  comps.foldl (fun m c => if c.cardId = k then some (c.name, c.url) else m)
    Option.none

/-- The card key the action would index `by_card`/`card_meta` with is
hashable — no `TypeError` at line 77.  Trivially true for every action
the scan skips (it never reaches line 77). -/
def idOk (a : PyVal) : Bool :=
  match extractCompletion a with
  | Option.none => true
  | some c => hashableKey c.cardId

/-- The conditions `benign` guarantees for an extracted completion: the
defaulted card name and date are strings. -/
def goodComp (c : Completion) : Bool :=
  (match pyOr c.name (.str "") with
   | .str _ => true
   | _ => false) &&
  (match pyOr c.date (.str "") with
   | .str _ => true
   | _ => false)

theorem pyGet_dict (xs : List (String × PyVal)) (k : String) (d : PyVal) :
    pyGet (.dict xs) k d = .ok (dGet xs k d) := rfl

theorem exBind_ok {α β : Type} (a : α) (f : α → Except PyErr β) :
    (Except.ok a >>= f) = f a := rfl

theorem processAction_benign (st : BRState) (a : PyVal) (h : benign a = true) :
    processAction st a = (extractCompletion a).elim (.ok st)
      (fun c => if hashableKey c.cardId then .ok (pushComp st c)
        else .error .typeError) := by
  cases a with
  | none => rfl
  | str s => rfl
  | list xs => rfl
  | dict xs =>
    simp only [benign] at h
    cases hd : dGet xs "data" (.dict []) with
    | none => simp only [hd] at h; exact Bool.noConfusion h
    | str s => simp only [hd] at h; exact Bool.noConfusion h
    | list ls => simp only [hd] at h; exact Bool.noConfusion h
    | dict ds =>
      simp only [hd] at h
      cases hci : dGet ds "checkItem" (.dict []) with
      | none => simp only [hci] at h; exact Bool.noConfusion h
      | str s => simp only [hci] at h; exact Bool.noConfusion h
      | list ls => simp only [hci] at h; exact Bool.noConfusion h
      | dict cs =>
        simp only [hci] at h
        by_cases hst : dGet cs "state" .none = .str "complete"
        · simp only [if_pos hst] at h
          cases hcard : pyOr (dGet ds "card" (.dict [])) (.dict []) with
          | none => simp only [hcard] at h; exact Bool.noConfusion h
          | str s => simp only [hcard] at h; exact Bool.noConfusion h
          | list ls => simp only [hcard] at h; exact Bool.noConfusion h
          | dict rs =>
            simp only [processAction, extractCompletion, isDict, if_true,
              pyGet_dict, hd, hci, hcard, exBind_ok, hst, if_pos,
              Option.elim, pushComp]
            simp [pyEq_iff, pyEq, pushComp]
        · simp only [if_neg hst] at h
          simp only [processAction, extractCompletion, isDict, if_true,
            pyGet_dict, hd, hci, exBind_ok, Option.elim, if_neg hst]
          simp [pyEq_iff, hst]

theorem benign_extract_good (a : PyVal) (c : Completion) (hb : benign a = true)
    (he : extractCompletion a = some c) : goodComp c = true := by
  cases a with
  | none => exact Option.noConfusion he
  | str s => exact Option.noConfusion he
  | list xs => exact Option.noConfusion he
  | dict xs =>
    simp only [benign] at hb
    simp only [extractCompletion] at he
    cases hd : dGet xs "data" (.dict []) with
    | none => simp only [hd] at he; exact Option.noConfusion he
    | str s => simp only [hd] at he; exact Option.noConfusion he
    | list ls => simp only [hd] at he; exact Option.noConfusion he
    | dict ds =>
      simp only [hd] at hb he
      cases hci : dGet ds "checkItem" (.dict []) with
      | none => simp only [hci] at he; exact Option.noConfusion he
      | str s => simp only [hci] at he; exact Option.noConfusion he
      | list ls => simp only [hci] at he; exact Option.noConfusion he
      | dict cs =>
        simp only [hci] at hb he
        by_cases hst : dGet cs "state" .none = .str "complete"
        · simp only [if_pos hst] at hb he
          cases hcard : pyOr (dGet ds "card" (.dict [])) (.dict []) with
          | none => simp only [hcard] at he; exact Option.noConfusion he
          | str s => simp only [hcard] at he; exact Option.noConfusion he
          | list ls => simp only [hcard] at he; exact Option.noConfusion he
          | dict rs =>
            simp only [hcard] at hb he
            cases he
            simpa [goodComp] using hb
        · simp only [if_neg hst] at he
          exact Option.noConfusion he

theorem foldlM_benign (actions : List PyVal) : ∀ (st : BRState),
    (∀ a ∈ actions, benign a = true) → (∀ a ∈ actions, idOk a = true) →
    List.foldlM processAction st actions =
      .ok (List.foldl pushComp st (compsOf actions)) := by
  induction actions with
  | nil => intro st _ _; rfl
  | cons a rest ih =>
    intro st h hid
    have ha := processAction_benign st a (h a (List.mem_cons_self a rest))
    have hida := hid a (List.mem_cons_self a rest)
    have hrest := fun x hx => h x (List.mem_cons_of_mem a hx)
    have hidrest := fun x hx => hid x (List.mem_cons_of_mem a hx)
    rw [List.foldlM_cons, ha]
    cases hex : extractCompletion a with
    | none =>
      simp only [hex, Option.elim]
      rw [exBind_ok, ih st hrest hidrest]
      simp [compsOf, List.filterMap_cons, hex]
    | some c =>
      have hk : hashableKey c.cardId = true := by
        simpa [idOk, hex] using hida
      simp only [hex, Option.elim, hk, if_true]
      rw [exBind_ok, ih (pushComp st c) hrest hidrest]
      simp [compsOf, List.filterMap_cons, hex]

theorem foldlM_benign_err (actions : List PyVal) : ∀ (st : BRState),
    (∀ a ∈ actions, benign a = true) → (∃ a ∈ actions, idOk a = false) →
    List.foldlM processAction st actions = .error .typeError := by
  induction actions with
  | nil =>
    intro st _ hbad
    rcases hbad with ⟨a, ha, _⟩
    exact absurd ha (List.not_mem_nil a)
  | cons a rest ih =>
    intro st h hbad
    have ha := processAction_benign st a (h a (List.mem_cons_self a rest))
    have hrest := fun x hx => h x (List.mem_cons_of_mem a hx)
    rw [List.foldlM_cons, ha]
    cases hid : idOk a with
    | false =>
      cases hex : extractCompletion a with
      | none => simp [idOk, hex] at hid
      | some c =>
        have hk : hashableKey c.cardId = false := by
          simpa [idOk, hex] using hid
        simp only [hex, Option.elim, hk, Bool.false_eq_true, if_false]
        rfl
    | true =>
      have hbad2 : ∃ x ∈ rest, idOk x = false := by
        rcases hbad with ⟨x, hx, hxf⟩
        rcases List.mem_cons.mp hx with rfl | hx2
        · rw [hid] at hxf
          exact Bool.noConfusion hxf
        · exact ⟨x, hx2, hxf⟩
      cases hex : extractCompletion a with
      | none =>
        simp only [hex, Option.elim]
        rw [exBind_ok]
        exact ih st hrest hbad2
      | some c =>
        have hk : hashableKey c.cardId = true := by
          simpa [idOk, hex] using hid
        simp only [hex, Option.elim, hk, if_true]
        rw [exBind_ok]
        exact ih (pushComp st c) hrest hbad2

theorem buildState_benign (actions : List PyVal)
    (h : ∀ a ∈ actions, benign a = true)
    (hid : ∀ a ∈ actions, idOk a = true) :
    buildState actions = .ok (stateOfComps (compsOf actions)) :=
  foldlM_benign actions ⟨[], []⟩ h hid

theorem buildState_benign_err (actions : List PyVal)
    (h : ∀ a ∈ actions, benign a = true)
    (hbad : ∃ a ∈ actions, idOk a = false) :
    buildState actions = .error .typeError :=
  foldlM_benign_err actions ⟨[], []⟩ h hbad

theorem alLookup_alAppendTo (k k2 : PyVal) (x : PyVal × PyVal) :
    ∀ l, alLookup k (alAppendTo k2 x l) =
      if k2 = k then some ((alLookup k l).getD [] ++ [x]) else alLookup k l
  | [] => by
      by_cases h : k2 = k <;> simp [alAppendTo, alLookup, pyEq_iff, h]
  | (l0, xs) :: rest => by
      by_cases h1 : l0 = k2
      · subst h1
        by_cases h2 : l0 = k
        · subst h2
          simp [alAppendTo, alLookup, pyEq_iff]
        · simp [alAppendTo, alLookup, pyEq_iff, h2]
      · by_cases h2 : l0 = k
        · subst h2
          have h3 : ¬(k2 = l0) := fun hh => h1 hh.symm
          simp [alAppendTo, alLookup, pyEq_iff, h1, h3]
        · simp [alAppendTo, alLookup, pyEq_iff, h1, h2,
            alLookup_alAppendTo k k2 x rest]

theorem alLookup_alUpdate (k k2 : PyVal) (v : PyVal × String) :
    ∀ l, alLookup k (alUpdate k2 v l) = if k2 = k then some v else alLookup k l
  | [] => by
      by_cases h : k2 = k <;> simp [alUpdate, alLookup, pyEq_iff, h]
  | (l0, w) :: rest => by
      by_cases h1 : l0 = k2
      · subst h1
        by_cases h2 : l0 = k
        · subst h2
          simp [alUpdate, alLookup, pyEq_iff]
        · simp [alUpdate, alLookup, pyEq_iff, h2]
      · by_cases h2 : l0 = k
        · subst h2
          have h3 : ¬(k2 = l0) := fun hh => h1 hh.symm
          simp [alUpdate, alLookup, pyEq_iff, h1, h3]
        · simp [alUpdate, alLookup, pyEq_iff, h1, h2,
            alLookup_alUpdate k k2 v rest]

theorem map_fst_alAppendTo (k : PyVal) (x : PyVal × PyVal) :
    ∀ l, (alAppendTo k x l).map Prod.fst =
      if k ∈ l.map Prod.fst then l.map Prod.fst else l.map Prod.fst ++ [k]
  | [] => by simp [alAppendTo]
  | (l0, xs) :: rest => by
      by_cases h1 : l0 = k
      · subst h1
        simp [alAppendTo, pyEq_iff]
      · have h3 : ¬(k = l0) := fun hh => h1 hh.symm
        by_cases h2 : k ∈ rest.map Prod.fst <;>
          simp [alAppendTo, pyEq_iff, h1, h3, h2, map_fst_alAppendTo k x rest]

/-- The completions list the scan accumulated for card `k`. -/
def byCardObs (k : PyVal) (st : BRState) : List (PyVal × PyVal) :=
  (alLookup k st.byCard).getD []

/-- The card keys of the scan state, in dict order. -/
def keysOf (st : BRState) : List PyVal := st.byCard.map Prod.fst

/-- `firstKeys` with an arbitrary starting accumulator. -/
def firstKeysFrom (ks : List PyVal) (comps : List Completion) : List PyVal :=
  comps.foldl (fun ks c => if c.cardId ∈ ks then ks else ks ++ [c.cardId]) ks

/-- `metaFor` with an arbitrary starting accumulator. -/
def metaAcc (k : PyVal) (m : Option (PyVal × String))
    (comps : List Completion) : Option (PyVal × String) :=
  comps.foldl (fun m c => if c.cardId = k then some (c.name, c.url) else m) m

theorem byCardObs_push (k : PyVal) (st : BRState) (c : Completion) :
    byCardObs k (pushComp st c) =
      if c.cardId = k then byCardObs k st ++ [(c.date, c.item)]
      else byCardObs k st := by
  unfold byCardObs pushComp
  rw [alLookup_alAppendTo]
  by_cases h : c.cardId = k <;> simp [h]

theorem keysOf_push (st : BRState) (c : Completion) :
    keysOf (pushComp st c) =
      if c.cardId ∈ keysOf st then keysOf st else keysOf st ++ [c.cardId] := by
  unfold keysOf pushComp
  rw [map_fst_alAppendTo]

theorem metaLookup_push (k : PyVal) (st : BRState) (c : Completion) :
    alLookup k (pushComp st c).cardMeta =
      if c.cardId = k then some (c.name, c.url) else alLookup k st.cardMeta := by
  unfold pushComp
  rw [alLookup_alUpdate]

theorem byCardObs_foldl : ∀ (comps : List Completion) (st : BRState) (k : PyVal),
    byCardObs k (List.foldl pushComp st comps) = byCardObs k st ++ compsFor k comps
  | [], st, k => by simp [compsFor]
  | c :: rest, st, k => by
      rw [List.foldl_cons, byCardObs_foldl rest (pushComp st c) k, byCardObs_push]
      by_cases h : c.cardId = k <;> simp [compsFor, h]

theorem keysOf_foldl : ∀ (comps : List Completion) (st : BRState),
    keysOf (List.foldl pushComp st comps) = firstKeysFrom (keysOf st) comps
  | [], st => rfl
  | c :: rest, st => by
      rw [List.foldl_cons, keysOf_foldl rest (pushComp st c), keysOf_push]
      by_cases h : c.cardId ∈ keysOf st <;> simp [firstKeysFrom, h]

theorem metaLookup_foldl : ∀ (comps : List Completion) (st : BRState) (k : PyVal),
    alLookup k (List.foldl pushComp st comps).cardMeta =
      metaAcc k (alLookup k st.cardMeta) comps
  | [], st, k => rfl
  | c :: rest, st, k => by
      rw [List.foldl_cons, metaLookup_foldl rest (pushComp st c) k, metaLookup_push]
      by_cases h : c.cardId = k <;> simp [metaAcc, h]

theorem stateOf_byCardObs (comps : List Completion) (k : PyVal) :
    byCardObs k (stateOfComps comps) = compsFor k comps := by
  unfold stateOfComps
  rw [byCardObs_foldl]
  simp [byCardObs, alLookup]

theorem stateOf_keys (comps : List Completion) :
    keysOf (stateOfComps comps) = firstKeys comps := by
  unfold stateOfComps
  rw [keysOf_foldl]
  rfl

theorem stateOf_meta (comps : List Completion) (k : PyVal) :
    alLookup k (stateOfComps comps).cardMeta = metaFor k comps := by
  unfold stateOfComps
  rw [metaLookup_foldl]
  rfl

theorem firstKeysFrom_cons (ks : List PyVal) (c : Completion)
    (rest : List Completion) :
    firstKeysFrom ks (c :: rest) =
      firstKeysFrom (if c.cardId ∈ ks then ks else ks ++ [c.cardId]) rest := rfl

theorem mem_firstKeysFrom : ∀ (comps : List Completion) (ks : List PyVal)
    (x : PyVal), x ∈ firstKeysFrom ks comps ↔
      x ∈ ks ∨ ∃ c ∈ comps, c.cardId = x
  | [], ks, x => by simp [firstKeysFrom]
  | c :: rest, ks, x => by
      rw [firstKeysFrom_cons]
      by_cases h : c.cardId ∈ ks
      · rw [if_pos h, mem_firstKeysFrom rest ks x]
        have hcx : c.cardId = x → x ∈ ks := fun he => he ▸ h
        simp only [List.mem_cons]
        constructor
        · rintro (hk | ⟨c2, hc2, he2⟩)
          · exact Or.inl hk
          · exact Or.inr ⟨c2, Or.inr hc2, he2⟩
        · rintro (hk | ⟨c2, (rfl | hc2), he2⟩)
          · exact Or.inl hk
          · exact Or.inl (hcx he2)
          · exact Or.inr ⟨c2, hc2, he2⟩
      · rw [if_neg h, mem_firstKeysFrom rest (ks ++ [c.cardId]) x]
        simp only [List.mem_append, List.mem_singleton, List.mem_cons,
          List.not_mem_nil, or_false]
        constructor
        · rintro ((hk | rfl) | ⟨c2, hc2, he2⟩)
          · exact Or.inl hk
          · exact Or.inr ⟨c, Or.inl rfl, rfl⟩
          · exact Or.inr ⟨c2, Or.inr hc2, he2⟩
        · rintro (hk | ⟨c2, (rfl | hc2), he2⟩)
          · exact Or.inl (Or.inl hk)
          · exact Or.inl (Or.inr he2.symm)
          · exact Or.inr ⟨c2, hc2, he2⟩

theorem nodup_firstKeysFrom : ∀ (comps : List Completion) (ks : List PyVal),
    ks.Nodup → (firstKeysFrom ks comps).Nodup
  | [], ks, h => h
  | c :: rest, ks, h => by
      rw [firstKeysFrom_cons]
      by_cases hm : c.cardId ∈ ks
      · rw [if_pos hm]
        exact nodup_firstKeysFrom rest ks h
      · rw [if_neg hm]
        refine nodup_firstKeysFrom rest (ks ++ [c.cardId]) ?_
        simp [List.nodup_append, h, hm]

theorem firstKeys_eq_from (comps : List Completion) :
    firstKeys comps = firstKeysFrom [] comps := rfl

theorem firstKeys_perm {l1 l2 : List Completion} (hp : l1.Perm l2) :
    (firstKeys l1).Perm (firstKeys l2) := by
  rw [List.perm_ext_iff_of_nodup
    (by rw [firstKeys_eq_from]; exact nodup_firstKeysFrom l1 [] List.nodup_nil)
    (by rw [firstKeys_eq_from]; exact nodup_firstKeysFrom l2 [] List.nodup_nil)]
  intro x
  rw [firstKeys_eq_from, firstKeys_eq_from, mem_firstKeysFrom,
    mem_firstKeysFrom]
  constructor
  · rintro (hk | ⟨c, hc, he⟩)
    · exact absurd hk (List.not_mem_nil x)
    · exact Or.inr ⟨c, hp.mem_iff.mp hc, he⟩
  · rintro (hk | ⟨c, hc, he⟩)
    · exact absurd hk (List.not_mem_nil x)
    · exact Or.inr ⟨c, hp.mem_iff.mpr hc, he⟩

theorem mapM_ok {α β : Type} (f : α → Except PyErr β) (g : α → β) :
    ∀ l : List α, (∀ x ∈ l, f x = .ok (g x)) →
      l.mapM f = .ok (l.map g)
  | [], _ => rfl
  | x :: rest, h => by
      rw [List.mapM_cons, h x (List.mem_cons_self x rest), exBind_ok,
        mapM_ok f g rest (fun y hy => h y (List.mem_cons_of_mem x hy)),
        exBind_ok]
      rfl

theorem sorted_perm_eq {α : Type} (le : α → α → Bool) :
    ∀ {l1 l2 : List α}, l1.Perm l2 →
      l1.Pairwise (fun a b => le a b = true) →
      l2.Pairwise (fun a b => le a b = true) →
      (∀ a ∈ l1, ∀ b ∈ l1, le a b = true → le b a = true → a = b) →
      l1 = l2
  | [], l2, hp, _, _, _ => hp.nil_eq
  | a :: as, [], hp, _, _, _ => absurd hp.symm.nil_eq (by simp)
  | a :: as, b :: bs, hp, hs1, hs2, hanti => by
      by_cases hab : a = b
      · subst hab
        have htail := hp.cons_inv
        have := sorted_perm_eq le htail (List.pairwise_cons.mp hs1).2
          (List.pairwise_cons.mp hs2).2
          (fun x hx y hy hxy hyx =>
            hanti x (List.mem_cons_of_mem a hx) y (List.mem_cons_of_mem a hy)
              hxy hyx)
        rw [this]
      · have hbmem : b ∈ a :: as := hp.mem_iff.mpr (List.mem_cons_self b bs)
        have hamem : a ∈ b :: bs := hp.mem_iff.mp (List.mem_cons_self a as)
        have hbas : b ∈ as := by
          rcases List.mem_cons.mp hbmem with h | h
          · exact absurd h.symm hab
          · exact h
        have habs : a ∈ bs := by
          rcases List.mem_cons.mp hamem with h | h
          · exact absurd h hab
          · exact h
        have h1 : le a b = true := (List.pairwise_cons.mp hs1).1 b hbas
        have h2 : le b a = true := (List.pairwise_cons.mp hs2).1 a habs
        exact absurd (hanti a (List.mem_cons_self a as) b hbmem h1 h2) hab

theorem metaAcc_cons (k : PyVal) (c : Completion) (rest : List Completion)
    (m : Option (PyVal × String)) :
    metaAcc k m (c :: rest) = metaAcc k
      (if c.cardId = k then some (c.name, c.url) else m) rest := by
  unfold metaAcc
  rw [List.foldl_cons]

theorem metaFor_cons (k : PyVal) (c : Completion) (rest : List Completion) :
    metaFor k (c :: rest) = metaAcc k
      (if c.cardId = k then some (c.name, c.url) else Option.none) rest := by
  unfold metaFor metaAcc
  rw [List.foldl_cons]

theorem metaAcc_elim : ∀ (comps : List Completion) (k : PyVal)
    (m : Option (PyVal × String)),
    metaAcc k m comps = match metaFor k comps with
      | some v => some v
      | Option.none => m
  | [], k, m => rfl
  | c :: rest, k, m => by
      rw [metaAcc_cons, metaAcc_elim rest k _, metaFor_cons,
        metaAcc_elim rest k _]
      cases metaFor k rest with
      | some v => rfl
      | none => by_cases hck : c.cardId = k <;> simp [hck]

theorem metaFor_eq_none_iff : ∀ (comps : List Completion) (k : PyVal),
    metaFor k comps = Option.none ↔ ∀ c ∈ comps, c.cardId ≠ k
  | [], k => by simp [metaFor]
  | c :: rest, k => by
      rw [metaFor_cons, metaAcc_elim]
      cases hm : metaFor k rest with
      | some v =>
        simp only [List.mem_cons]
        constructor
        · intro hh; exact Option.noConfusion hh
        · intro hh
          have := (metaFor_eq_none_iff rest k).mpr
            (fun x hx => hh x (Or.inr hx))
          rw [hm] at this
          exact Option.noConfusion this
      | none =>
        by_cases hck : c.cardId = k
        · simp only [if_pos hck, List.mem_cons]
          constructor
          · intro hh; exact Option.noConfusion hh
          · intro hh; exact absurd hck (hh c (Or.inl rfl))
        · simp only [if_neg hck, List.mem_cons]
          constructor
          · intro _ x hx
            rcases hx with rfl | hx
            · exact hck
            · exact (metaFor_eq_none_iff rest k).mp hm x hx
          · intro _; trivial

theorem metaFor_mem : ∀ (comps : List Completion) (k : PyVal)
    (v : PyVal × String), metaFor k comps = some v →
      ∃ c ∈ comps, c.cardId = k ∧ (c.name, c.url) = v
  | [], k, v, h => Option.noConfusion h
  | c :: rest, k, v, h => by
      rw [metaFor_cons, metaAcc_elim] at h
      cases hm : metaFor k rest with
      | some w =>
        rw [hm] at h
        have hwv : w = v := Option.some.inj h
        obtain ⟨c2, hc2, hk2, hv2⟩ := metaFor_mem rest k w hm
        exact ⟨c2, List.mem_cons_of_mem c hc2, hk2, hv2.trans hwv⟩
      | none =>
        rw [hm] at h
        by_cases hck : c.cardId = k
        · rw [if_pos hck] at h
          exact ⟨c, List.mem_cons_self c rest, hck, Option.some.inj h⟩
        · rw [if_neg hck] at h
          exact Option.noConfusion h

/-- Pair order on decorated lists: compare the precomputed string keys. -/
def pairLe {γ : Type} (a b : List Char × γ) : Bool := strLe a.1 b.1

theorem pairLe_trans {γ : Type} (a b c : List Char × γ)
    (h1 : pairLe a b = true) (h2 : pairLe b c = true) : pairLe a c = true :=
  strLe_trans h1 h2

theorem pairLe_total {γ : Type} (a b : List Char × γ) :
    (pairLe a b || pairLe b a) = true :=
  strLe_total a.1 b.1

/-- Is the defaulted value `v or ""` a string (so that the code can call
`.lower()` on it / compare it as a sort key)? -/
def goodStrV (v : PyVal) : Bool :=
  match pyOr v (.str "") with
  | .str _ => true
  | _ => false

/-- The string contents of `v or ""` (junk `[]` when not a string; only
used под `goodStrV`). -/
def strVChars (v : PyVal) : List Char :=
  match pyOr v (.str "") with
  | .str s => s.data
  | _ => []

/-- The (total) completion sort key of line 90. -/
def dateKeyB (x : PyVal × PyVal) : List Char := strVChars x.1

/-- The (total) card sort key: lower-cased `name or ""`. -/
def nameKeyB (v : PyVal) : List Char := pyLower (strVChars v)

theorem dateSortKey_ok (x : PyVal × PyVal) (h : goodStrV x.1 = true) :
    dateSortKey x = .ok (dateKeyB x) := by
  unfold dateSortKey dateKeyB strVChars
  unfold goodStrV at h
  cases hv : pyOr x.1 (.str "") with
  | str s => rfl
  | none => rw [hv] at h; exact Bool.noConfusion h
  | list ls => rw [hv] at h; exact Bool.noConfusion h
  | dict ds => rw [hv] at h; exact Bool.noConfusion h

theorem cardSortKey_ok (st : BRState) (cid : PyVal)
    (h : goodStrV ((alLookup cid st.cardMeta).getD (.none, "")).1 = true) :
    cardSortKey st cid =
      .ok (nameKeyB ((alLookup cid st.cardMeta).getD (.none, "")).1) := by
  unfold cardSortKey nameKeyB strVChars
  unfold goodStrV at h
  cases hv : pyOr ((alLookup cid st.cardMeta).getD (.none, "")).1 (.str "") with
  | str s => rfl
  | none => rw [hv] at h; exact Bool.noConfusion h
  | list ls => rw [hv] at h; exact Bool.noConfusion h
  | dict ds => rw [hv] at h; exact Bool.noConfusion h

theorem sortedCompletions_ok (comps : List (PyVal × PyVal))
    (h : ∀ x ∈ comps, goodStrV x.1 = true) :
    sortedCompletions comps =
      .ok (stableSort pairLe (comps.map (fun x => (dateKeyB x, x)))) := by
  unfold sortedCompletions
  rw [mapM_ok _ (fun x => (dateKeyB x, x)) comps
    (fun x hx => by rw [dateSortKey_ok x (h x hx), exBind_ok]; rfl)]
  rfl

theorem sortedCardKeys_ok (st : BRState)
    (h : ∀ p ∈ st.byCard,
      goodStrV ((alLookup p.1 st.cardMeta).getD (.none, "")).1 = true) :
    sortedCardKeys st =
      .ok (stableSort pairLe (st.byCard.map (fun p =>
        (nameKeyB ((alLookup p.1 st.cardMeta).getD (.none, "")).1, p.1)))) := by
  unfold sortedCardKeys
  rw [mapM_ok _ (fun p =>
      (nameKeyB ((alLookup p.1 st.cardMeta).getD (.none, "")).1, p.1)) st.byCard
    (fun p hp => by rw [cardSortKey_ok st p.1 (h p hp), exBind_ok]; rfl)]
  rfl

theorem mapM_congr {α β : Type} (f1 f2 : α → Except PyErr β) :
    ∀ l : List α, (∀ x ∈ l, f1 x = f2 x) → l.mapM f1 = l.mapM f2
  | [], _ => rfl
  | x :: rest, h => by
      rw [List.mapM_cons, List.mapM_cons, h x (List.mem_cons_self x rest),
        mapM_congr f1 f2 rest (fun y hy => h y (List.mem_cons_of_mem x hy))]

theorem goodComp_split (c : Completion) :
    goodComp c = (goodStrV c.name && goodStrV c.date) := rfl

theorem compsOf_perm {l1 l2 : List PyVal} (hp : l1.Perm l2) :
    (compsOf l1).Perm (compsOf l2) := hp.filterMap extractCompletion

theorem compsFor_perm (k : PyVal) {c1 c2 : List Completion}
    (hp : c1.Perm c2) : (compsFor k c1).Perm (compsFor k c2) := by
  unfold compsFor
  exact (hp.filter _).map _

theorem goodComps_of_benign (actions : List PyVal)
    (h : ∀ a ∈ actions, benign a = true) :
    ∀ c ∈ compsOf actions, goodComp c = true := by
  intro c hc
  obtain ⟨a, ha, he⟩ := List.mem_filterMap.mp hc
  exact benign_extract_good a c (h a ha) he

theorem mem_compsFor (k : PyVal) (comps : List Completion)
    (x : PyVal × PyVal) (hx : x ∈ compsFor k comps) :
    ∃ c ∈ comps, c.cardId = k ∧ (c.date, c.item) = x := by
  obtain ⟨c, hc, he⟩ := List.mem_map.mp hx
  have hcf := List.mem_filter.mp hc
  exact ⟨c, hcf.1, of_decide_eq_true hcf.2, he⟩

theorem firstKeys_nil_iff (comps : List Completion) :
    firstKeys comps = [] ↔ comps = [] := by
  constructor
  · intro h
    cases hc : comps with
    | nil => rfl
    | cons c rest =>
      have : c.cardId ∈ firstKeys comps := by
        rw [firstKeys_eq_from, mem_firstKeysFrom]
        exact Or.inr ⟨c, hc ▸ List.mem_cons_self c rest, rfl⟩
      rw [h] at this
      exact absurd this (List.not_mem_nil _)
  · intro h; rw [h]; rfl

theorem metaFor_perm (k : PyVal) {l1 l2 : List Completion} (hp : l1.Perm l2)
    (hc : ∀ c1 ∈ l1, ∀ c2 ∈ l1, c1.cardId = c2.cardId →
      (c1.name, c1.url) = (c2.name, c2.url)) :
    metaFor k l1 = metaFor k l2 := by
  cases hm1 : metaFor k l1 with
  | none =>
    cases hm2 : metaFor k l2 with
    | none => rfl
    | some v =>
      obtain ⟨c, hcm, hk, _⟩ := metaFor_mem l2 k v hm2
      exact absurd hk ((metaFor_eq_none_iff l1 k).mp hm1 c (hp.mem_iff.mpr hcm))
  | some v =>
    obtain ⟨c, hcm, hk, hv⟩ := metaFor_mem l1 k v hm1
    cases hm2 : metaFor k l2 with
    | none =>
      exact absurd hk ((metaFor_eq_none_iff l2 k).mp hm2 c (hp.mem_iff.mp hcm))
    | some w =>
      obtain ⟨c2, hcm2, hk2, hv2⟩ := metaFor_mem l2 k w hm2
      have heq : (c.name, c.url) = (c2.name, c2.url) :=
        hc c hcm c2 (hp.mem_iff.mpr hcm2) (hk.trans hk2.symm)
      rw [← hv, ← hv2, heq]

theorem stableInsert_perm {g : Type} (le : g → g → Bool) (x : g) :
    ∀ l, (stableInsert le x l).Perm (x :: l)
  | [] => List.Perm.refl _
  | y :: rest => by
      unfold stableInsert
      by_cases h : le x y = true
      · rw [if_pos h]
      · rw [if_neg h]
        exact ((stableInsert_perm le x rest).cons y).trans
          (List.Perm.swap x y rest)

theorem stableSort_perm {g : Type} (le : g → g → Bool) :
    ∀ l : List g, (stableSort le l).Perm l
  | [] => List.Perm.refl _
  | x :: rest =>
      (stableInsert_perm le x (stableSort le rest)).trans
        ((stableSort_perm le rest).cons x)

theorem stableInsert_pairwise {g : Type} (le : g → g → Bool)
    (htrans : ∀ a b c, le a b = true → le b c = true → le a c = true)
    (htotal : ∀ a b, (le a b || le b a) = true) (x : g) :
    ∀ l, l.Pairwise (fun a b => le a b = true) →
      (stableInsert le x l).Pairwise (fun a b => le a b = true)
  | [], _ => by simp [stableInsert]
  | y :: rest, h => by
      obtain ⟨hy, hrest⟩ := List.pairwise_cons.mp h
      unfold stableInsert
      by_cases hxy : le x y = true
      · rw [if_pos hxy]
        refine List.pairwise_cons.mpr ⟨?_, h⟩
        intro z hz
        rcases List.mem_cons.mp hz with rfl | hz2
        · exact hxy
        · exact htrans x y z hxy (hy z hz2)
      · rw [if_neg hxy]
        have hyx : le y x = true := by
          have ht := htotal x y
          simp only [Bool.or_eq_true] at ht
          rcases ht with ht | ht
          · exact absurd ht hxy
          · exact ht
        refine List.pairwise_cons.mpr
          ⟨?_, stableInsert_pairwise le htrans htotal x rest hrest⟩
        intro z hz
        have hz3 : z ∈ x :: rest :=
          (stableInsert_perm le x rest).mem_iff.mp hz
        rcases List.mem_cons.mp hz3 with rfl | hz2
        · exact hyx
        · exact hy z hz2

theorem stableSort_pairwise {g : Type} (le : g → g → Bool)
    (htrans : ∀ a b c, le a b = true → le b c = true → le a c = true)
    (htotal : ∀ a b, (le a b || le b a) = true) :
    ∀ l, (stableSort le l).Pairwise (fun a b => le a b = true)
  | [] => List.Pairwise.nil
  | x :: rest =>
      stableInsert_pairwise le htrans htotal x (stableSort le rest)
        (stableSort_pairwise le htrans htotal rest)

theorem sortedCompletions_perm_eq (k : PyVal) {c1 c2 : List Completion}
    (hpc : c1.Perm c2)
    (hgood : ∀ c ∈ c1, goodComp c = true)
    (hdate : ∀ x ∈ c1, ∀ y ∈ c1, x.cardId = y.cardId →
      dateKeyB (x.date, x.item) = dateKeyB (y.date, y.item) →
      (x.date, x.item) = (y.date, y.item)) :
    sortedCompletions (compsFor k c1) = sortedCompletions (compsFor k c2) := by
  have hgood2 : ∀ c ∈ c2, goodComp c = true :=
    fun c hc => hgood c (hpc.mem_iff.mpr hc)
  have hg1 : ∀ x ∈ compsFor k c1, goodStrV x.1 = true := by
    intro x hx
    obtain ⟨c, hc, _, he⟩ := mem_compsFor k c1 x hx
    have := hgood c hc
    rw [goodComp_split, Bool.and_eq_true] at this
    rw [← he]
    exact this.2
  have hg2 : ∀ x ∈ compsFor k c2, goodStrV x.1 = true := by
    intro x hx
    obtain ⟨c, hc, _, he⟩ := mem_compsFor k c2 x hx
    have := hgood2 c hc
    rw [goodComp_split, Bool.and_eq_true] at this
    rw [← he]
    exact this.2
  rw [sortedCompletions_ok _ hg1, sortedCompletions_ok _ hg2]
  congr 1
  refine sorted_perm_eq pairLe ?_ ?_ ?_ ?_
  · exact (stableSort_perm pairLe _).trans
      (((compsFor_perm k hpc).map _).trans (stableSort_perm pairLe _).symm)
  · exact stableSort_pairwise pairLe pairLe_trans pairLe_total _
  · exact stableSort_pairwise pairLe pairLe_trans pairLe_total _
  · intro a ha b hb hab hba
    have ha2 := List.mem_map.mp ((stableSort_perm pairLe _).mem_iff.mp ha)
    have hb2 := List.mem_map.mp ((stableSort_perm pairLe _).mem_iff.mp hb)
    obtain ⟨x, hx, rfl⟩ := ha2
    obtain ⟨y, hy, rfl⟩ := hb2
    have hkeq : dateKeyB x = dateKeyB y := strLe_antisymm hab hba
    obtain ⟨cx, hcx, hkx, hex⟩ := mem_compsFor k c1 x hx
    obtain ⟨cy, hcy, hky, hey⟩ := mem_compsFor k c1 y hy
    have : (cx.date, cx.item) = (cy.date, cy.item) := by
      refine hdate cx hcx cy hcy (hkx.trans hky.symm) ?_
      rw [hex, hey, hkeq]
    have hxy : x = y := by rw [← hex, ← hey, this]
    rw [hxy]

theorem renderCard_perm_eq (tz : PyTz) (k : PyVal) {c1 c2 : List Completion}
    (hpc : c1.Perm c2)
    (hgood : ∀ c ∈ c1, goodComp c = true)
    (hmeta : ∀ x ∈ c1, ∀ y ∈ c1, x.cardId = y.cardId →
      (x.name, x.url) = (y.name, y.url))
    (hdate : ∀ x ∈ c1, ∀ y ∈ c1, x.cardId = y.cardId →
      dateKeyB (x.date, x.item) = dateKeyB (y.date, y.item) →
      (x.date, x.item) = (y.date, y.item)) :
    renderCard tz (stateOfComps c1) k = renderCard tz (stateOfComps c2) k := by
  have hm1 : alLookup k (stateOfComps c1).cardMeta = metaFor k c1 :=
    stateOf_meta c1 k
  have hm2 : alLookup k (stateOfComps c2).cardMeta = metaFor k c2 :=
    stateOf_meta c2 k
  have hmm : metaFor k c1 = metaFor k c2 := metaFor_perm k hpc hmeta
  have hobs1 : (alLookup k (stateOfComps c1).byCard).getD [] = compsFor k c1 :=
    stateOf_byCardObs c1 k
  have hobs2 : (alLookup k (stateOfComps c2).byCard).getD [] = compsFor k c2 :=
    stateOf_byCardObs c2 k
  unfold renderCard
  rw [hm1, hm2, hmm, hobs1, hobs2]
  simp only [sortedCompletions_perm_eq k hpc hgood hdate]

theorem metaGood_of_keys (c1 : List Completion)
    (hgood : ∀ c ∈ c1, goodComp c = true) :
    ∀ p ∈ (stateOfComps c1).byCard,
      goodStrV ((alLookup p.1 (stateOfComps c1).cardMeta).getD (.none, "")).1 =
        true := by
  intro p hp
  have hk : p.1 ∈ keysOf (stateOfComps c1) := List.mem_map_of_mem Prod.fst hp
  rw [stateOf_keys, firstKeys_eq_from, mem_firstKeysFrom] at hk
  rw [stateOf_meta]
  rcases hk with h0 | ⟨c, hc, hck⟩
  · exact absurd h0 (List.not_mem_nil _)
  · cases hm : metaFor p.1 c1 with
    | none => exact absurd hck ((metaFor_eq_none_iff c1 p.1).mp hm c hc)
    | some v =>
      obtain ⟨cw, hcw, _, hv⟩ := metaFor_mem c1 p.1 v hm
      have hgw := hgood cw hcw
      rw [goodComp_split, Bool.and_eq_true] at hgw
      rw [Option.getD_some, ← hv]
      exact hgw.1

theorem sortedCardKeys_perm_eq {c1 c2 : List Completion} (hpc : c1.Perm c2)
    (hgood : ∀ c ∈ c1, goodComp c = true)
    (hmeta : ∀ x ∈ c1, ∀ y ∈ c1, x.cardId = y.cardId →
      (x.name, x.url) = (y.name, y.url))
    (hname : ∀ x ∈ c1, ∀ y ∈ c1, x.cardId ≠ y.cardId →
      nameKeyB x.name ≠ nameKeyB y.name) :
    sortedCardKeys (stateOfComps c1) = sortedCardKeys (stateOfComps c2) := by
  have hgood2 : ∀ c ∈ c2, goodComp c = true :=
    fun c hc => hgood c (hpc.mem_iff.mpr hc)
  rw [sortedCardKeys_ok _ (metaGood_of_keys c1 hgood),
    sortedCardKeys_ok _ (metaGood_of_keys c2 hgood2)]
  congr 1
  have hA1 : (stateOfComps c1).byCard.map (fun p =>
      (nameKeyB ((alLookup p.1 (stateOfComps c1).cardMeta).getD (.none, "")).1,
        p.1)) =
      (firstKeys c1).map (fun k =>
        (nameKeyB ((metaFor k c1).getD (.none, "")).1, k)) := by
    rw [← stateOf_keys c1]
    unfold keysOf
    rw [List.map_map]
    refine List.map_congr_left ?_
    intro p _
    simp only [Function.comp_apply]
    rw [stateOf_meta]
  have hA2 : (stateOfComps c2).byCard.map (fun p =>
      (nameKeyB ((alLookup p.1 (stateOfComps c2).cardMeta).getD (.none, "")).1,
        p.1)) =
      (firstKeys c2).map (fun k =>
        (nameKeyB ((metaFor k c1).getD (.none, "")).1, k)) := by
    rw [← stateOf_keys c2]
    unfold keysOf
    rw [List.map_map]
    refine List.map_congr_left ?_
    intro p _
    simp only [Function.comp_apply]
    rw [stateOf_meta, metaFor_perm p.1 hpc hmeta]
  refine sorted_perm_eq pairLe ?_ ?_ ?_ ?_
  · refine (stableSort_perm pairLe _).trans
      (List.Perm.trans ?_ (stableSort_perm pairLe _).symm)
    rw [hA1, hA2]
    exact (firstKeys_perm hpc).map _
  · exact stableSort_pairwise pairLe pairLe_trans pairLe_total _
  · exact stableSort_pairwise pairLe pairLe_trans pairLe_total _
  · intro a ha b hb hab hba
    rw [(stableSort_perm pairLe _).mem_iff, hA1] at ha hb
    obtain ⟨k1, hk1, rfl⟩ := List.mem_map.mp ha
    obtain ⟨k2, hk2, rfl⟩ := List.mem_map.mp hb
    have hkeq : nameKeyB ((metaFor k1 c1).getD (.none, "")).1 =
        nameKeyB ((metaFor k2 c1).getD (.none, "")).1 := strLe_antisymm hab hba
    rw [firstKeys_eq_from, mem_firstKeysFrom] at hk1 hk2
    rcases hk1 with h0 | ⟨cx, hcx, hckx⟩
    · exact absurd h0 (List.not_mem_nil _)
    rcases hk2 with h0 | ⟨cy, hcy, hcky⟩
    · exact absurd h0 (List.not_mem_nil _)
    by_cases hkk : k1 = k2
    · rw [hkk]
    · exfalso
      cases hm1 : metaFor k1 c1 with
      | none => exact absurd hckx ((metaFor_eq_none_iff c1 k1).mp hm1 cx hcx)
      | some v1 =>
        cases hm2 : metaFor k2 c1 with
        | none => exact absurd hcky ((metaFor_eq_none_iff c1 k2).mp hm2 cy hcy)
        | some v2 =>
          obtain ⟨cw1, hcw1, hck1, hv1⟩ := metaFor_mem c1 k1 v1 hm1
          obtain ⟨cw2, hcw2, hck2, hv2⟩ := metaFor_mem c1 k2 v2 hm2
          have hne : cw1.cardId ≠ cw2.cardId := by
            rw [hck1, hck2]; exact hkk
          refine hname cw1 hcw1 cw2 hcw2 hne ?_
          rw [hm1, hm2, Option.getD_some, Option.getD_some, ← hv1, ← hv2]
            at hkeq
          exact hkeq

theorem stateOf_byCard_nil_iff (comps : List Completion) :
    (stateOfComps comps).byCard = [] ↔ comps = [] := by
  constructor
  · intro h
    have hk : keysOf (stateOfComps comps) = [] := by
      unfold keysOf
      rw [h]
      rfl
    rw [stateOf_keys] at hk
    exact (firstKeys_nil_iff comps).mp hk
  · intro h; rw [h]; rfl

theorem buildReport_perm (startD endD : PyAware) (tz : PyTz)
    {l1 l2 : List PyVal} (hp : l1.Perm l2)
    (hb : ∀ a ∈ l1, benign a = true)
    (hmeta : ∀ x ∈ compsOf l1, ∀ y ∈ compsOf l1, x.cardId = y.cardId →
      (x.name, x.url) = (y.name, y.url))
    (hname : ∀ x ∈ compsOf l1, ∀ y ∈ compsOf l1, x.cardId ≠ y.cardId →
      nameKeyB x.name ≠ nameKeyB y.name)
    (hdate : ∀ x ∈ compsOf l1, ∀ y ∈ compsOf l1, x.cardId = y.cardId →
      dateKeyB (x.date, x.item) = dateKeyB (y.date, y.item) →
      (x.date, x.item) = (y.date, y.item)) :
    buildReport startD endD tz l1 = buildReport startD endD tz l2 := by
  have hb2 : ∀ a ∈ l2, benign a = true := fun a ha => hb a (hp.mem_iff.mpr ha)
  have hpc : (compsOf l1).Perm (compsOf l2) := compsOf_perm hp
  have hgood : ∀ c ∈ compsOf l1, goodComp c = true := goodComps_of_benign l1 hb
  by_cases hid : ∀ a ∈ l1, idOk a = true
  case neg =>
    have hbad : ∃ a ∈ l1, idOk a = false := by
      push_neg at hid
      rcases hid with ⟨a, ha, hf⟩
      exact ⟨a, ha, Bool.eq_false_iff.mpr hf⟩
    have hbad2 : ∃ a ∈ l2, idOk a = false := by
      rcases hbad with ⟨a, ha, hf⟩
      exact ⟨a, hp.mem_iff.mp ha, hf⟩
    unfold buildReport
    rw [buildState_benign_err l1 hb hbad, buildState_benign_err l2 hb2 hbad2]
  have hid2 : ∀ a ∈ l2, idOk a = true := fun a ha => hid a (hp.mem_iff.mpr ha)
  unfold buildReport
  rw [buildState_benign l1 hb hid, buildState_benign l2 hb2 hid2,
    exBind_ok, exBind_ok]
  by_cases hnil : compsOf l1 = []
  · have hnil2 : compsOf l2 = [] := (hnil ▸ hpc).symm.eq_nil.symm ▸ rfl
    rw [hnil, hnil2]
  · have hnil2 : compsOf l2 ≠ [] := by
      intro h
      exact hnil ((h ▸ hpc).eq_nil)
    have hbe1 : (stateOfComps (compsOf l1)).byCard.isEmpty = false := by
      rw [Bool.eq_false_iff]
      intro h
      exact hnil ((stateOf_byCard_nil_iff _).mp (List.isEmpty_iff.mp h))
    have hbe2 : (stateOfComps (compsOf l2)).byCard.isEmpty = false := by
      rw [Bool.eq_false_iff]
      intro h
      exact hnil2 ((stateOf_byCard_nil_iff _).mp (List.isEmpty_iff.mp h))
    have hre : (fun (q : List Char × PyVal) =>
        renderCard tz (stateOfComps (compsOf l1)) q.2) =
        (fun q => renderCard tz (stateOfComps (compsOf l2)) q.2) := by
      funext q
      exact renderCard_perm_eq tz q.2 hpc hgood hmeta hdate
    simp only [hbe1, hbe2, Bool.false_eq_true, if_false]
    rw [hre, sortedCardKeys_perm_eq hpc hgood hmeta hname]

theorem chunkSplitAux_flatten : ∀ (l : List Char) (cls : Bool) (cur : List Char),
    (chunkSplitAux cls cur l).flatten = cur.reverse ++ l
  | [], cls, cur => by simp [chunkSplitAux]
  | c :: cs, cls, cur => by
      unfold chunkSplitAux
      by_cases h : isPyTextWs c = cls
      · rw [if_pos h, chunkSplitAux_flatten cs cls (c :: cur)]
        simp
      · rw [if_neg h, List.flatten_cons,
          chunkSplitAux_flatten cs (isPyTextWs c) [c]]
        simp

theorem chunkSplit_flatten : ∀ l : List Char, (chunkSplit l).flatten = l
  | [] => rfl
  | c :: cs => by
      unfold chunkSplit
      rw [chunkSplitAux_flatten cs (isPyTextWs c) [c]]
      rfl

theorem pyExpandTabs_no_tab : ∀ (l : List Char) (col : Nat), '\t' ∉ l →
    pyExpandTabs 8 col l = l
  | [], _, _ => rfl
  | c :: cs, col, h => by
      have hc : ¬(c = '\t') := fun he => h (he ▸ List.mem_cons_self c cs)
      have hcs : '\t' ∉ cs := fun hm => h (List.mem_cons_of_mem c hm)
      unfold pyExpandTabs
      rw [if_neg hc]
      by_cases h2 : c = '\n' ∨ c = '\r'
      · rw [if_pos h2, pyExpandTabs_no_tab cs 0 hcs]
      · rw [if_neg h2, pyExpandTabs_no_tab cs (col + 1) hcs]

theorem packChunks_append (w : Nat) : ∀ (n : Nat) (l : List (List Char)),
    (packChunks w n l).1 ++ (packChunks w n l).2 = l
  | _, [] => rfl
  | n, c :: rest => by
      unfold packChunks
      by_cases h : n + c.length ≤ w
      · simp only [if_pos h]
        rw [List.cons_append, packChunks_append w (n + c.length) rest]
      · simp only [if_neg h]
        rfl

theorem packChunks_sum (w : Nat) : ∀ (n : Nat) (l : List (List Char)),
    n ≤ w → n + (((packChunks w n l).1.map List.length).sum) ≤ w
  | _, [], h => by simpa [packChunks]
  | n, c :: rest, h => by
      unfold packChunks
      by_cases hf : n + c.length ≤ w
      · simp only [if_pos hf, List.map_cons, List.sum_cons]
        have := packChunks_sum w (n + c.length) rest hf
        omega
      · simp only [if_neg hf, List.map_nil, List.sum_nil]
        omega

theorem packChunks_rem_over (w : Nat) : ∀ (n : Nat) (l : List (List Char))
    (c : List Char) (rest : List (List Char)),
    (packChunks w n l).2 = c :: rest →
    ¬(n + (((packChunks w n l).1.map List.length).sum) + c.length ≤ w)
  | _, [], c, rest, h => by simp [packChunks] at h
  | n, c0 :: tl, c, rest, h => by
      unfold packChunks at h ⊢
      by_cases hf : n + c0.length ≤ w
      · simp only [if_pos hf] at h ⊢
        simp only [List.map_cons, List.sum_cons]
        have := packChunks_rem_over w (n + c0.length) tl c rest h
        omega
      · simp only [if_neg hf] at h ⊢
        rw [List.cons.injEq] at h
        rw [← h.1]
        simp only [List.map_nil, List.sum_nil]
        omega

theorem rfindHyphen_lt : ∀ (l : List Char) (h : Nat),
    rfindHyphen l = some h → h < l.length
  | [], h, he => Option.noConfusion he
  | c :: rest, h, he => by
      unfold rfindHyphen at he
      cases hr : rfindHyphen rest with
      | some i =>
        rw [hr] at he
        have := rfindHyphen_lt rest i hr
        have hh : i + 1 = h := Option.some.inj he
        simp only [List.length_cons]
        omega
      | none =>
        rw [hr] at he
        by_cases hc : c = '-'
        · rw [if_pos hc] at he
          have h0 : (0 : Nat) = h := Option.some.inj he
          simp only [List.length_cons]
          omega
        · rw [if_neg hc] at he
          exact Option.noConfusion he

theorem hlwEnd_le (sl : Nat) (c : List Char) : hlwEnd sl c ≤ sl := by
  unfold hlwEnd
  by_cases h : c.length > sl
  · rw [if_pos h]
    split
    · rename_i i hr
      split
      · have := rfindHyphen_lt (c.take sl) i hr
        rw [List.length_take] at this
        omega
      · exact Nat.le_refl sl
    · exact Nat.le_refl sl
  · rw [if_neg h]

theorem hlwEnd_pos (sl : Nat) (c : List Char) (h : 1 ≤ sl) :
    1 ≤ hlwEnd sl c := by
  unfold hlwEnd
  by_cases hg : c.length > sl
  · rw [if_pos hg]
    split
    · split
      · omega
      · exact h
    · exact h
  · rw [if_neg hg]
    exact h

theorem muChunks_append (a b : List (List Char)) :
    muChunks (a ++ b) = muChunks a + muChunks b := by
  unfold muChunks
  rw [List.map_append, List.sum_append, List.length_append]
  omega

theorem muChunks_pos (l : List (List Char)) (h : l ≠ []) : 1 ≤ muChunks l := by
  cases l with
  | nil => exact absurd rfl h
  | cons x xs =>
    unfold muChunks
    simp only [List.length_cons]
    omega

theorem takeLine_concat (w : Nat) (l : List (List Char)) :
    (takeLine w l).1 ++ ((takeLine w l).2).flatten = l.flatten := by
  have hsplit := packChunks_append w 0 l
  unfold takeLine
  split
  · rename_i taken heq
    rw [heq] at hsplit
    simp only [List.append_nil] at hsplit
    simp only [List.flatten_nil, List.append_nil]
    rw [hsplit]
  · rename_i taken c rest heq
    rw [heq] at hsplit
    simp only at hsplit
    by_cases hc : c.length > w
    · rw [if_pos hc]
      simp only [List.flatten_cons]
      rw [← hsplit, List.flatten_append, List.flatten_cons,
        List.append_assoc, ← List.append_assoc (List.take _ c),
        List.take_append_drop]
    · rw [if_neg hc]
      rw [← hsplit, List.flatten_append]

theorem takeLine_len (w : Nat) (l : List (List Char)) (hw : 1 ≤ w) :
    (takeLine w l).1.length ≤ w := by
  have hsum := packChunks_sum w 0 l (by omega)
  unfold takeLine
  split
  · rename_i taken heq
    rw [heq] at hsum
    simp only at hsum
    simp only [List.length_flatten]
    omega
  · rename_i taken c rest heq
    rw [heq] at hsum
    simp only at hsum
    by_cases hc : c.length > w
    · rw [if_pos hc]
      have hele := hlwEnd_le (hlwSpaceLeft w ((taken.map List.length).sum)) c
      have hsl : hlwSpaceLeft w ((taken.map List.length).sum) =
          w - ((taken.map List.length).sum) := by
        unfold hlwSpaceLeft
        rw [if_neg (by omega)]
      simp only [List.length_append, List.length_flatten, List.length_take]
      omega
    · rw [if_neg hc]
      simp only [List.length_flatten]
      omega

theorem takeLine_mu (w : Nat) (l : List (List Char)) (h : l ≠ []) :
    muChunks (takeLine w l).2 < muChunks l := by
  have hsplit := packChunks_append w 0 l
  unfold takeLine
  split
  · rename_i taken heq
    have hpos := muChunks_pos l h
    unfold muChunks at hpos ⊢
    simp only [List.map_nil, List.sum_nil, List.length_nil]
    omega
  · rename_i taken c rest heq
    rw [heq] at hsplit
    simp only at hsplit
    by_cases hc : c.length > w
    · rw [if_pos hc]
      have hele := hlwEnd_le (hlwSpaceLeft w ((taken.map List.length).sum)) c
      rw [← hsplit, muChunks_append]
      unfold muChunks
      simp only [List.map_cons, List.sum_cons, List.length_cons,
        List.length_drop]
      by_cases ht : taken = []
      · have hsum0 : ((taken.map List.length).sum) = 0 := by rw [ht]; rfl
        have htlen : taken.length = 0 := by rw [ht]; rfl
        have hsl : 1 ≤ hlwSpaceLeft w ((taken.map List.length).sum) := by
          unfold hlwSpaceLeft
          split <;> omega
        have he1 := hlwEnd_pos (hlwSpaceLeft w ((taken.map List.length).sum)) c
          hsl
        omega
      · have hμt : 1 ≤ (taken.map List.length).sum + taken.length := by
          have := muChunks_pos taken ht
          unfold muChunks at this
          exact this
        omega
    · rw [if_neg hc]
      have hover := packChunks_rem_over w 0 l c rest (by rw [heq])
      rw [heq] at hover
      simp only at hover
      rw [← hsplit, muChunks_append]
      unfold muChunks
      simp only [List.map_cons, List.sum_cons, List.length_cons]
      omega

theorem wrapChunksF_concat (w : Nat) : ∀ (fuel : Nat) (l : List (List Char)),
    muChunks l ≤ fuel → (wrapChunksF w fuel l).flatten = l.flatten
  | fuel, [], _ => by cases fuel <;> rfl
  | 0, c :: rest, h => by
      have := muChunks_pos (c :: rest) (by simp)
      omega
  | fuel + 1, c :: rest, h => by
      unfold wrapChunksF
      rw [List.flatten_cons]
      have hmu := takeLine_mu w (c :: rest) (by simp)
      rw [wrapChunksF_concat w fuel (takeLine w (c :: rest)).2 (by omega)]
      exact takeLine_concat w (c :: rest)

theorem wrapChunksF_len (w : Nat) (hw : 1 ≤ w) : ∀ (fuel : Nat)
    (l : List (List Char)) (x : List Char),
    x ∈ wrapChunksF w fuel l → x.length ≤ w
  | fuel, [], x, hx => by cases fuel <;> exact absurd hx (List.not_mem_nil x)
  | 0, _ :: _, x, hx => absurd hx (List.not_mem_nil x)
  | fuel + 1, c :: rest, x, hx => by
      unfold wrapChunksF at hx
      rcases List.mem_cons.mp hx with rfl | hx2
      · exact takeLine_len w (c :: rest) hw
      · exact wrapChunksF_len w hw fuel (takeLine w (c :: rest)).2 x hx2

theorem pyWrap_concat (w : Nat) (text : List Char) :
    (pyWrap w text).flatten = pyExpandTabs 8 0 text := by
  unfold pyWrap
  rw [wrapChunksF_concat w _ _ (Nat.le_refl _), chunkSplit_flatten]

theorem pyWrap_len (w : Nat) (hw : 1 ≤ w) (text : List Char) :
    ∀ x ∈ pyWrap w text, x.length ≤ w := by
  intro x hx
  exact wrapChunksF_len w hw _ _ x hx

theorem tgSendLoop_fail : ∀ (chunks : List (List Char)) (ok : Nat → Bool)
    (i N : Nat), (∀ j, j < N → ok (i + j) = true) → ok (i + N) = false →
    N < chunks.length →
    tgSendLoop ok i chunks = (chunks.take (N + 1), false)
  | [], _, _, N, _, _, hlen => by simp at hlen
  | c :: rest, ok, i, N, hok, hfail, hlen => by
      unfold tgSendLoop
      cases N with
      | zero =>
        rw [show i + 0 = i from rfl] at hfail
        simp [hfail]
      | succ M =>
        have h0 : ok i = true := by
          have := hok 0 (Nat.succ_pos M)
          simpa using this
        simp only [h0, if_true]
        rw [tgSendLoop_fail rest ok (i + 1) M
          (fun j hj => by
            have := hok (j + 1) (by omega)
            rw [show i + (j + 1) = i + 1 + j by omega] at this
            exact this)
          (by
            rw [show i + 1 + M = i + (M + 1) by omega]
            exact hfail)
          (by
            simp only [List.length_cons] at hlen
            omega)]
        simp

/-- Total number of completion entries across all card groups. -/
def totalEntries (st : BRState) : Nat :=
  (st.byCard.map (fun p => p.2.length)).sum

theorem sum_alAppendTo (k : PyVal) (x : PyVal × PyVal) :
    ∀ l, ((alAppendTo k x l).map (fun p => p.2.length)).sum =
      ((l.map (fun p => p.2.length)).sum) + 1
  | [] => by simp [alAppendTo]
  | (l0, xs) :: rest => by
      unfold alAppendTo
      by_cases h : pyEq l0 k = true
      · simp [h]
        omega
      · rw [if_neg (by simp [h])]
        simp only [List.map_cons, List.sum_cons, sum_alAppendTo k x rest]
        omega

theorem totalEntries_foldl : ∀ (comps : List Completion) (st : BRState),
    totalEntries (List.foldl pushComp st comps) = totalEntries st + comps.length
  | [], st => rfl
  | c :: rest, st => by
      rw [List.foldl_cons, totalEntries_foldl rest (pushComp st c)]
      have hp : totalEntries (pushComp st c) = totalEntries st + 1 := by
        unfold totalEntries pushComp
        exact sum_alAppendTo c.cardId (c.date, c.item) st.byCard
      rw [hp]
      simp only [List.length_cons]
      omega

theorem length_filterMap_eq {α β : Type} (f : α → Option β) :
    ∀ l : List α, (l.filterMap f).length =
      (l.filter (fun a => (f a).isSome)).length
  | [] => rfl
  | x :: rest => by
      rw [List.filterMap_cons, List.filter_cons]
      cases hf : f x with
      | none => simpa using length_filterMap_eq f rest
      | some b => simpa using length_filterMap_eq f rest

theorem compsFor_count : ∀ (comps : List Completion) (k d i : PyVal),
    (compsFor k comps).count (d, i) =
      (comps.filter (fun c => decide (c.cardId = k) && decide (c.date = d) &&
        decide (c.item = i))).length
  | [], _, _, _ => rfl
  | c :: rest, k, d, i => by
      have hrec := compsFor_count rest k d i
      unfold compsFor at hrec ⊢
      by_cases hk : c.cardId = k
      · by_cases hd : c.date = d
        · by_cases hi : c.item = i
          · simp [hk, hd, hi, List.count_cons, hrec]
          · simp [hk, hd, hi, List.count_cons, hrec, Prod.mk.injEq]
        · simp [hk, hd, List.count_cons, hrec, Prod.mk.injEq]
      · simp [hk, hrec]

theorem compsFor_goodDates (k : PyVal) (comps : List Completion)
    (hgood : ∀ c ∈ comps, goodComp c = true) :
    ∀ x ∈ compsFor k comps, goodStrV x.1 = true := by
  intro x hx
  obtain ⟨c, hc, _, he⟩ := mem_compsFor k comps x hx
  have := hgood c hc
  rw [goodComp_split, Bool.and_eq_true] at this
  rw [← he]
  exact this.2

/-- The rendered block of card `k`, expressed over the reference views of
the scan state (used to state that rendering succeeds). -/
def rcVal (tz : PyTz) (comps : List Completion) (k : PyVal) : List String :=
  ("🔹 <a href=\"" ++ ((metaFor k comps).getD (.none, "")).2 ++ "\">" ++
    pyStr ((metaFor k comps).getD (.none, "")).1 ++ "</a>") ::
  ((stableSort pairLe ((compsFor k comps).map (fun x => (dateKeyB x, x)))).map
    (fun q => " — " ++ fmtLocalPy tz q.2.1 ++ " — " ++ pyStr q.2.2) ++ [""])

theorem renderCard_ok (tz : PyTz) (comps : List Completion) (k : PyVal)
    (hgood : ∀ c ∈ comps, goodComp c = true) :
    renderCard tz (stateOfComps comps) k = .ok (rcVal tz comps k) := by
  have hobs : (alLookup k (stateOfComps comps).byCard).getD [] =
      compsFor k comps := stateOf_byCardObs comps k
  unfold renderCard
  rw [stateOf_meta, hobs]
  simp only [sortedCompletions_ok _ (compsFor_goodDates k comps hgood),
    exBind_ok]
  rfl

theorem buildReport_benign_ok (startD endD : PyAware) (tz : PyTz)
    (actions : List PyVal) (hb : ∀ a ∈ actions, benign a = true)
    (hid : ∀ a ∈ actions, idOk a = true) :
    ∃ r, buildReport startD endD tz actions = .ok r := by
  have hgood := goodComps_of_benign actions hb
  unfold buildReport
  rw [buildState_benign actions hb hid, exBind_ok]
  by_cases hnil : (stateOfComps (compsOf actions)).byCard.isEmpty = true
  · simp only [hnil, if_true]
    exact ⟨_, rfl⟩
  · simp only [hnil, if_false]
    rw [Bool.not_eq_true] at hnil
    simp only [hnil, Bool.false_eq_true, if_false]
    rw [sortedCardKeys_ok _ (metaGood_of_keys _ hgood), exBind_ok]
    rw [mapM_ok _ (fun q => rcVal tz (compsOf actions) q.2) _
      (fun q _ => renderCard_ok tz (compsOf actions) q.2 hgood), exBind_ok]
    exact ⟨_, rfl⟩

/-- Decidable equality of `Except` results (used to evaluate the embedded
functions at concrete inputs). -/
def exceptDecEq {e a : Type} [DecidableEq e] [DecidableEq a] :
    DecidableEq (Except e a)
  | .ok x, .ok y =>
    if h : x = y then isTrue (h ▸ rfl)
    else isFalse (fun he => h (Except.ok.inj he))
  | .error x, .error y =>
    if h : x = y then isTrue (h ▸ rfl)
    else isFalse (fun he => h (Except.error.inj he))
  | .ok _, .error _ => isFalse Except.noConfusion
  | .error _, .ok _ => isFalse Except.noConfusion

instance {e a : Type} [DecidableEq e] [DecidableEq a] :
    DecidableEq (Except e a) := exceptDecEq

/-- The line-77 error path at a concrete input: a complete record whose
card `id` is a list is benign in shape, yet `by_card[card_id]` raises
`TypeError` — the scan, and with it `build_report`, fails. -/
theorem buildState_unhashable_id :
    benign (.dict [("data", .dict [("checkItem",
      .dict [("state", .str "complete")]),
      ("card", .dict [("id", .list [])])])]) = true ∧
    buildState [.dict [("data", .dict [("checkItem",
      .dict [("state", .str "complete")]),
      ("card", .dict [("id", .list [])])])]] = .error .typeError ∧
    buildReport ⟨0, 0⟩ ⟨7 * 86400, 0⟩ (fun _ => 0)
      [.dict [("data", .dict [("checkItem",
        .dict [("state", .str "complete")]),
        ("card", .dict [("id", .list [])])])]] = .error .typeError := by
  refine ⟨by decide, by decide, by decide⟩

/-- C1 (counterexample): the claim fails on a text containing a TAB.
`textwrap.wrap` expands tabs (`expand_tabs` defaults to `True`, and the
call at line 99 does not override it), so the single-character text `"\t"`
chunks to one run of eight spaces and the concatenation of the chunks is
not the original text. -/
theorem c1_tab_counterexample :
    tgChunks ['\t'] = [List.replicate 8 ' '] ∧
    (tgChunks ['\t']).flatten ≠ ['\t'] := by
  decide

/-- C1 (amended): every chunk produced by the line-99 chunking is at most
3500 characters long (for every input text), and for every text containing
no TAB character the concatenation of the chunks in order reproduces the
text exactly — no character lost, reordered, trimmed or altered.  (For a
text with tabs the concatenation is the text with tabs expanded to
spaces.) -/
theorem c1_chunking_amended (text : List Char) :
    (∀ chunk ∈ tgChunks text, chunk.length ≤ 3500) ∧
    ('\t' ∉ text → (tgChunks text).flatten = text) := by
  constructor
  · exact pyWrap_len 3500 (by omega) text
  · intro h
    have : tgChunks text = pyWrap 3500 text := rfl
    rw [this, pyWrap_concat, pyExpandTabs_no_tab text 0 h]

/-- C1 witness: the amended theorem applied to a concrete tab-free text. -/
theorem c1_chunking_witness :
    (∀ chunk ∈ tgChunks "hello\nworld  ok".data, chunk.length ≤ 3500) ∧
    (tgChunks "hello\nworld  ok".data).flatten = "hello\nworld  ok".data :=
  ⟨(c1_chunking_amended "hello\nworld  ok".data).1,
   (c1_chunking_amended "hello\nworld  ok".data).2 (by decide)⟩

/-- C2 (counterexample): the claim fails for a zone whose UTC offset is not
constant.  With a zone that switches from UTC+0 to UTC+1 at the instant
345600 (a Monday 00:00) and `now` at instant 392400 (that Monday, 13:00
UTC), the computed `start` carries the offset pytz attached at `now`, so
read back in the configured zone it falls on Sunday 23:00 — not Monday
midnight. -/
theorem c2_dst_counterexample :
    ¬ isMondayMidnightWall (zoneWall (fun u => if u < 345600 then 0 else 3600)
      (utcInstant (windowStart
        (pyNow (fun u => if u < 345600 then 0 else 3600) 392400)))) := by
  decide

/-- C2 (amended): for a zone of **constant** offset `c` (such as the
default Europe/Moscow) and any instant `now`, the window of lines 27–31
satisfies the claim: `start` and `end` are Monday 00:00 when read back in
the configured zone, `end` is the Monday 00:00 of the week containing
`now` (it is at most `now` and less than seven days before it), the window
spans exactly seven days of real time, and it is half-open — `end` itself
is excluded. -/
theorem c2_window_amended (c utcNow : Int) :
    isMondayMidnightWall (zoneWall (fun _ => c)
      (utcInstant (windowStart (pyNow (fun _ => c) utcNow)))) ∧
    isMondayMidnightWall (zoneWall (fun _ => c)
      (utcInstant (windowEnd (pyNow (fun _ => c) utcNow)))) ∧
    utcInstant (windowEnd (pyNow (fun _ => c) utcNow)) -
      utcInstant (windowStart (pyNow (fun _ => c) utcNow)) = 7 * 86400 ∧
    ((windowEnd (pyNow (fun _ => c) utcNow)).wall ≤
        (pyNow (fun _ => c) utcNow).wall ∧
      (pyNow (fun _ => c) utcNow).wall <
        (windowEnd (pyNow (fun _ => c) utcNow)).wall + 7 * 86400) ∧
    (∀ t : Int, inWindow (pyNow (fun _ => c) utcNow) t ↔
      utcInstant (windowStart (pyNow (fun _ => c) utcNow)) ≤ t ∧
        t < utcInstant (windowEnd (pyNow (fun _ => c) utcNow))) ∧
    ¬ inWindow (pyNow (fun _ => c) utcNow)
      (utcInstant (windowEnd (pyNow (fun _ => c) utcNow))) := by
  simp only [pyNow, windowStart, windowEnd, mondayThisWeek,
    pyReplaceMidnight, pySubDays, pyWeekday, utcInstant, zoneWall,
    isMondayMidnightWall, inWindow]
  refine ⟨⟨by omega, by omega⟩, ⟨by omega, by omega⟩, by omega,
    ⟨by omega, by omega⟩, by intros; trivial, by omega⟩

/-- C3 (counterexample): `build_report` does raise on some malformed
entries.  A dict action whose `data` field is a string reaches
`data.get("checkItem", {})`, and `str` has no `.get`: an
`AttributeError` escapes `build_report` instead of the record being
treated as filtered out. -/
theorem c3_raise_counterexample :
    buildReport ⟨0, 0⟩ ⟨7 * 86400, 0⟩ (fun _ => 0)
      [.dict [("data", .str "oops")]] = .error .attributeError := by
  decide

/-- C3 (amended): `build_report` returns a Report without raising for every
action sequence whose entries are `benign` and have a hashable card key:
non-dict entries (skipped at line 65), entries whose defaulted
`data`/`checkItem` fields are dicts and that either fail the
`state == "complete"` test or also have a dict-shaped (or falsy) `card`,
a string-or-falsy card name (`.lower()` at line 87), a string-or-falsy
date (the sort at line 90), and a card `id` that is not a list or dict
(`by_card[card_id]` at line 77).  The scan state is exactly the fold of
the extracted completion records — only records whose checklist state
equals `"complete"` are kept — and the total number of kept entries
equals the number of complete well-formed records in the input. -/
theorem c3_no_raise_amended (startD endD : PyAware) (tz : PyTz)
    (actions : List PyVal) (hb : ∀ a ∈ actions, benign a = true)
    (hid : ∀ a ∈ actions, idOk a = true) :
    (∃ r, buildReport startD endD tz actions = .ok r) ∧
    buildState actions = .ok (stateOfComps (compsOf actions)) ∧
    totalEntries (stateOfComps (compsOf actions)) =
      (actions.filter (fun a => (extractCompletion a).isSome)).length := by
  refine ⟨buildReport_benign_ok startD endD tz actions hb hid,
    buildState_benign actions hb hid, ?_⟩
  unfold stateOfComps
  rw [totalEntries_foldl]
  have h0 : totalEntries ⟨[], []⟩ = 0 := rfl
  rw [h0]
  unfold compsOf
  rw [length_filterMap_eq]
  omega

/-- C3 witness: a mixed concrete input — a non-dict entry, an incomplete
record, a complete record and an empty dict — builds successfully and
keeps exactly the one complete record. -/
theorem c3_no_raise_witness :
    (∃ r, buildReport ⟨0, 0⟩ ⟨7 * 86400, 0⟩ (fun _ => 0)
      [.str "junk",
       .dict [("data", .dict [("checkItem",
         .dict [("state", .str "incomplete"), ("name", .str "skip")])])],
       .dict [("date", .none), ("data", .dict [("checkItem",
         .dict [("state", .str "complete"), ("name", .str "done")]),
         ("card", .dict [("id", .str "c1"), ("name", .str "Card")])])],
       .dict []] = .ok r) ∧
    buildState [.str "junk",
       .dict [("data", .dict [("checkItem",
         .dict [("state", .str "incomplete"), ("name", .str "skip")])])],
       .dict [("date", .none), ("data", .dict [("checkItem",
         .dict [("state", .str "complete"), ("name", .str "done")]),
         ("card", .dict [("id", .str "c1"), ("name", .str "Card")])])],
       .dict []] = .ok (stateOfComps (compsOf [.str "junk",
       .dict [("data", .dict [("checkItem",
         .dict [("state", .str "incomplete"), ("name", .str "skip")])])],
       .dict [("date", .none), ("data", .dict [("checkItem",
         .dict [("state", .str "complete"), ("name", .str "done")]),
         ("card", .dict [("id", .str "c1"), ("name", .str "Card")])])],
       .dict []])) ∧
    totalEntries (stateOfComps (compsOf [.str "junk",
       .dict [("data", .dict [("checkItem",
         .dict [("state", .str "incomplete"), ("name", .str "skip")])])],
       .dict [("date", .none), ("data", .dict [("checkItem",
         .dict [("state", .str "complete"), ("name", .str "done")]),
         ("card", .dict [("id", .str "c1"), ("name", .str "Card")])])],
       .dict []])) =
      ([PyVal.str "junk",
       .dict [("data", .dict [("checkItem",
         .dict [("state", .str "incomplete"), ("name", .str "skip")])])],
       .dict [("date", .none), ("data", .dict [("checkItem",
         .dict [("state", .str "complete"), ("name", .str "done")]),
         ("card", .dict [("id", .str "c1"), ("name", .str "Card")])])],
       .dict []].filter (fun a => (extractCompletion a).isSome)).length :=
  c3_no_raise_amended ⟨0, 0⟩ ⟨7 * 86400, 0⟩ (fun _ => 0) _ (by decide) (by decide)

/-- First completion event of card `c1` (name `X`, short link `s1`). -/
def c4act1 : PyVal := .dict [("date", .none), ("data", .dict [("checkItem",
  .dict [("state", .str "complete"), ("name", .str "i1")]), ("card",
  .dict [("id", .str "c1"), ("name", .str "X"), ("shortLink", .str "s1")])])]

/-- Second completion event of the same card (name `Y`, short link `s2`). -/
def c4act2 : PyVal := .dict [("date", .none), ("data", .dict [("checkItem",
  .dict [("state", .str "complete"), ("name", .str "i2")]), ("card",
  .dict [("id", .str "c1"), ("name", .str "Y"), ("shortLink", .str "s2")])])]

/-- C4 (counterexample): the displayed name and URL are **not** those of the
first event for the card.  With two completions of card `c1` carrying
names `X`/`Y` and short links `s1`/`s2`, the report shows `Y` and
`.../s2` — line 78 overwrites `card_meta[card_id]` on every event, so the
last one wins, not the first. -/
theorem c4_first_meta_counterexample :
    buildReport ⟨0, 0⟩ ⟨7 * 86400, 0⟩ (fun _ => 0) [c4act1, c4act2] =
      .ok ("Отчёт по выполненным чек-пунктам: 1970-01-01 — 1970-01-07",
        "🔹 <a href=\"https://trello.com/c/s2\">Y</a>\n — None — i1\n — None — i2") ∧
    ("🔹 <a href=\"https://trello.com/c/s2\">Y</a>\n — None — i1\n — None — i2" : String) ≠
      "🔹 <a href=\"https://trello.com/c/s1\">X</a>\n — None — i1\n — None — i2" := by
  decide

/-- C4 (amended): for benign actions whose card keys are hashable (a list
or dict `id` instead raises `TypeError` at line 77), the report groups by
parent-card identifier (the group keys are the card ids in order of first
occurrence), and for each card the stored display name and URL are the
ones captured from the **last** completion event of that card — with the
name defaulting to `"Без названия"` when absent and the URL
`https://trello.com/c/<shortLink>`, empty when the short link is absent
or falsy (both defaults applied inside `extractCompletion`/`metaFor`). -/
theorem c4_group_meta_amended (actions : List PyVal) (k : PyVal)
    (hb : ∀ a ∈ actions, benign a = true)
    (hid : ∀ a ∈ actions, idOk a = true) :
    (buildState actions).map (fun st => alLookup k st.cardMeta) =
      .ok (metaFor k (compsOf actions)) ∧
    (buildState actions).map keysOf = .ok (firstKeys (compsOf actions)) := by
  rw [buildState_benign actions hb hid]
  exact ⟨by simp [Except.map, stateOf_meta], by simp [Except.map, stateOf_keys]⟩

/-- A complete event whose card has no `name` and no `shortLink`. -/
def c4wact : PyVal := .dict [("data", .dict [("checkItem",
  .dict [("state", .str "complete"), ("name", .str "C")]), ("card",
  .dict [("id", .str "c2")])])]

/-- C4 witness: the amended theorem at a concrete input; the defaults
`"Без названия"` and the empty URL are what the meta map stores. -/
theorem c4_group_meta_witness :
    ((buildState [c4wact]).map (fun st => alLookup (.str "c2") st.cardMeta) =
      .ok (metaFor (.str "c2") (compsOf [c4wact])) ∧
     (buildState [c4wact]).map keysOf = .ok (firstKeys (compsOf [c4wact]))) ∧
    metaFor (.str "c2") (compsOf [c4wact]) = some (.str "Без названия", "") ∧
    firstKeys (compsOf [c4wact]) = [.str "c2"] :=
  ⟨c4_group_meta_amended [c4wact] (.str "c2") (by decide) (by decide),
   by decide, by decide⟩

/-- Completion of card `c1`, item `A`. -/
def c5act1 : PyVal := .dict [("date", .str "2024-01-01T00:00:00Z"), ("data",
  .dict [("checkItem", .dict [("state", .str "complete"), ("name", .str "A")]),
  ("card", .dict [("id", .str "c1"), ("name", .str "N")])])]

/-- Completion of the same card with the same timestamp, item `B`. -/
def c5act2 : PyVal := .dict [("date", .str "2024-01-01T00:00:00Z"), ("data",
  .dict [("checkItem", .dict [("state", .str "complete"), ("name", .str "B")]),
  ("card", .dict [("id", .str "c1"), ("name", .str "N")])])]

/-- C5 (counterexample): permuting the input can change the report.  Two
completions of one card with **equal** timestamps keep their input order
(Python's sort is stable), so reversing the input swaps the two rendered
lines and the bodies differ. -/
theorem c5_perm_counterexample :
    [c5act1, c5act2].Perm [c5act2, c5act1] ∧
    buildReport ⟨0, 0⟩ ⟨7 * 86400, 0⟩ (fun _ => 0) [c5act1, c5act2] ≠
      buildReport ⟨0, 0⟩ ⟨7 * 86400, 0⟩ (fun _ => 0) [c5act2, c5act1] :=
  ⟨List.Perm.swap c5act2 c5act1 [], by decide⟩

/-- C5 (amended): permutation invariance holds once the sort keys are
decisive: all events of a card agree on the card's name and URL, within a
card equal date keys only occur for identical `(date, item)` pairs, and
distinct cards have distinct lower-cased display names.  Under those
conditions any permutation of a benign input yields the identical report;
moreover — with no extra hypotheses on ordering — each completion record
appears in the group of its own card exactly as often as it occurs among
the complete input records. -/
theorem c5_perm_amended (startD endD : PyAware) (tz : PyTz)
    (l1 l2 : List PyVal) (hp : l1.Perm l2)
    (hb : ∀ a ∈ l1, benign a = true)
    (hmeta : ∀ x ∈ compsOf l1, ∀ y ∈ compsOf l1, x.cardId = y.cardId →
      (x.name, x.url) = (y.name, y.url))
    (hname : ∀ x ∈ compsOf l1, ∀ y ∈ compsOf l1, x.cardId ≠ y.cardId →
      nameKeyB x.name ≠ nameKeyB y.name)
    (hdate : ∀ x ∈ compsOf l1, ∀ y ∈ compsOf l1, x.cardId = y.cardId →
      dateKeyB (x.date, x.item) = dateKeyB (y.date, y.item) →
      (x.date, x.item) = (y.date, y.item)) :
    buildReport startD endD tz l1 = buildReport startD endD tz l2 ∧
    (∀ k d i : PyVal,
      (byCardObs k (stateOfComps (compsOf l1))).count (d, i) =
        ((compsOf l1).filter (fun c => decide (c.cardId = k) &&
          decide (c.date = d) && decide (c.item = i))).length) :=
  ⟨buildReport_perm startD endD tz hp hb hmeta hname hdate,
   fun k d i => by
     rw [show byCardObs k (stateOfComps (compsOf l1)) =
       compsFor k (compsOf l1) from stateOf_byCardObs (compsOf l1) k]
     exact compsFor_count (compsOf l1) k d i⟩

/-- Completion of card `c1` (`Card`), 2024-01-01. -/
def c5w1 : PyVal := .dict [("date", .str "2024-01-01T00:00:00Z"), ("data",
  .dict [("checkItem", .dict [("state", .str "complete"), ("name", .str "A")]),
  ("card", .dict [("id", .str "c1"), ("name", .str "Card")])])]

/-- Completion of card `c1` (`Card`), 2024-01-02. -/
def c5w2 : PyVal := .dict [("date", .str "2024-01-02T00:00:00Z"), ("data",
  .dict [("checkItem", .dict [("state", .str "complete"), ("name", .str "B")]),
  ("card", .dict [("id", .str "c1"), ("name", .str "Card")])])]

/-- Completion of card `c2` (`Other`), 2024-01-03. -/
def c5w3 : PyVal := .dict [("date", .str "2024-01-03T00:00:00Z"), ("data",
  .dict [("checkItem", .dict [("state", .str "complete"), ("name", .str "C")]),
  ("card", .dict [("id", .str "c2"), ("name", .str "Other")])])]

/-- C5 witness: the amended theorem applied to a concrete three-event input
and its reversal. -/
theorem c5_perm_witness :
    buildReport ⟨0, 0⟩ ⟨7 * 86400, 0⟩ (fun _ => 0) [c5w1, c5w2, c5w3] =
      buildReport ⟨0, 0⟩ ⟨7 * 86400, 0⟩ (fun _ => 0) [c5w3, c5w2, c5w1] ∧
    (∀ k d i : PyVal,
      (byCardObs k (stateOfComps (compsOf [c5w1, c5w2, c5w3]))).count (d, i) =
        ((compsOf [c5w1, c5w2, c5w3]).filter (fun c => decide (c.cardId = k) &&
          decide (c.date = d) && decide (c.item = i))).length) :=
  c5_perm_amended ⟨0, 0⟩ ⟨7 * 86400, 0⟩ (fun _ => 0) [c5w1, c5w2, c5w3]
    [c5w3, c5w2, c5w1] ((List.reverse_perm [c5w1, c5w2, c5w3]).symm)
    (by decide) (by decide) (by decide) (by decide)

/-- Completion of card `Card`, timestamp 2024-01-02T10:00:00Z, item `A`. -/
def c6eA : PyVal := .dict [("date", .str "2024-01-02T10:00:00Z"), ("data",
  .dict [("checkItem", .dict [("state", .str "complete"), ("name", .str "A")]),
  ("card", .dict [("id", .str "c1"), ("name", .str "Card"),
    ("shortLink", .str "s1")])])]

/-- Completion of the same card, timestamp 2024-01-01T09:00:00Z, item `B`. -/
def c6eB : PyVal := .dict [("date", .str "2024-01-01T09:00:00Z"), ("data",
  .dict [("checkItem", .dict [("state", .str "complete"), ("name", .str "B")]),
  ("card", .dict [("id", .str "c1"), ("name", .str "Card"),
    ("shortLink", .str "s1")])])]

/-- C6: within each card block the completion lines are sorted ascending by
the raw timestamp key (line 90), a missing timestamp gets the empty-string
key, which sorts before every other key; the card groups are sorted
ascending by lower-cased display name (line 87); and in the concrete
two-event scenario — timestamps `2024-01-02T10:00:00Z` (item `A`) and
`2024-01-01T09:00:00Z` (item `B`) on one card — the rendered block lists
`B` before `A`. -/
theorem c6_sort_order :
    (∀ (comps : List (PyVal × PyVal))
      (keyed : List (List Char × (PyVal × PyVal))),
      sortedCompletions comps = .ok keyed →
      keyed.Pairwise (fun a b => strLe a.1 b.1 = true)) ∧
    (∀ (st : BRState) (keyed : List (List Char × PyVal)),
      sortedCardKeys st = .ok keyed →
      keyed.Pairwise (fun a b => strLe a.1 b.1 = true)) ∧
    (∀ it : PyVal, dateSortKey (.none, it) = .ok []) ∧
    (∀ s : List Char, strLe [] s = true) ∧
    buildReport ⟨0, 0⟩ ⟨7 * 86400, 0⟩ (fun _ => 0) [c6eA, c6eB] =
      .ok ("Отчёт по выполненным чек-пунктам: 1970-01-01 — 1970-01-07",
        "🔹 <a href=\"https://trello.com/c/s1\">Card</a>\n — 2024-01-01 09:00 — B\n — 2024-01-02 10:00 — A") := by
  refine ⟨?_, ?_, fun it => rfl, ?_, by decide⟩
  · intro comps keyed h
    unfold sortedCompletions at h
    cases hm : comps.mapM (fun x => do
        let k ← dateSortKey x
        pure (k, x)) with
    | error e =>
      rw [hm] at h
      exact Except.noConfusion h
    | ok K =>
      rw [hm, exBind_ok] at h
      have hk : keyed = stableSort pairLe K := (Except.ok.inj h).symm
      rw [hk]
      exact stableSort_pairwise pairLe pairLe_trans pairLe_total K
  · intro st keyed h
    unfold sortedCardKeys at h
    cases hm : st.byCard.mapM (fun p => do
        let k ← cardSortKey st p.1
        pure (k, p.1)) with
    | error e =>
      rw [hm] at h
      exact Except.noConfusion h
    | ok K =>
      rw [hm, exBind_ok] at h
      have hk : keyed = stableSort pairLe K := (Except.ok.inj h).symm
      rw [hk]
      exact stableSort_pairwise pairLe pairLe_trans pairLe_total K
  · intro s
    unfold strLe
    cases s <;> rfl

/-- C6 witness: the sortedness conjuncts applied to a concrete completion
list and a concrete scan state. -/
theorem c6_sort_order_witness :
    List.Pairwise (fun a b => strLe a.1 b.1 = true)
      (stableSort pairLe
        ([((PyVal.str "2024-01-02T10:00:00Z", PyVal.str "A") : PyVal × PyVal),
          (PyVal.str "2024-01-01T09:00:00Z", PyVal.str "B"),
          (PyVal.none, PyVal.str "C")].map (fun x => (dateKeyB x, x)))) ∧
    List.Pairwise (fun a b => strLe a.1 b.1 = true)
      (stableSort pairLe
        ((stateOfComps (compsOf [c6eA, c6eB])).byCard.map (fun p =>
          (nameKeyB ((alLookup p.1
            (stateOfComps (compsOf [c6eA, c6eB])).cardMeta).getD
              (.none, "")).1, p.1)))) :=
  ⟨c6_sort_order.1
    [(PyVal.str "2024-01-02T10:00:00Z", PyVal.str "A"),
     (PyVal.str "2024-01-01T09:00:00Z", PyVal.str "B"),
     (PyVal.none, PyVal.str "C")] _ (by decide),
   c6_sort_order.2.1 (stateOfComps (compsOf [c6eA, c6eB])) _ (by decide)⟩

/-- C7: when no action yields a completion record (and the input is benign,
so the scan cannot raise), the body is exactly the fixed no-completions
sentence and the title still shows the date range — the window's start
date and its end date minus one day, the last included day. -/
theorem c7_empty_body (startD endD : PyAware) (tz : PyTz)
    (actions : List PyVal)
    (h : ∀ a ∈ actions, benign a = true ∧ extractCompletion a = Option.none) :
    buildReport startD endD tz actions =
      .ok ("Отчёт по выполненным чек-пунктам: " ++ strfDate startD ++ " — " ++
        strfDate (pySubDays endD 1),
        "За указанную неделю выполненных пунктов не найдено.") := by
  have hb : ∀ a ∈ actions, benign a = true := fun a ha => (h a ha).1
  have hid : ∀ a ∈ actions, idOk a = true := fun a ha => by
    simp [idOk, (h a ha).2]
  have hnil : compsOf actions = [] := by
    unfold compsOf
    rw [List.filterMap_eq_nil_iff]
    exact fun a ha => (h a ha).2
  unfold buildReport
  rw [buildState_benign actions hb hid, exBind_ok, hnil]
  rfl

/-- C7 witness: with the window computed for the instant
2024-01-10 12:00 UTC in a fixed UTC+3 zone, the empty report's title shows
`2024-01-01 — 2024-01-07` (the end date shown is the last included day)
and the body is the fixed sentence. -/
theorem c7_empty_body_witness :
    buildReport (windowStart (pyNow (fun _ => 10800) 1704888000))
      (windowEnd (pyNow (fun _ => 10800) 1704888000)) (fun _ => 10800)
      [.str "noise", .dict [("data", .dict [("checkItem",
        .dict [("state", .str "incomplete")])])]] =
      .ok ("Отчёт по выполненным чек-пунктам: 2024-01-01 — 2024-01-07",
        "За указанную неделю выполненных пунктов не найдено.") :=
  (c7_empty_body _ _ _ _ (by decide)).trans (by decide)

/-- C8: if the `N`-th `sendMessage` POST (0-based) is the first to return a
non-success status, `tg_send_html` issues the requests for chunks
`0 .. N` in their original order — the earlier ones successfully, the
`N`-th being the failing one — raises (`raise_for_status`, the
`DeliveryError`), which propagates to the caller (`false` in the result),
and no chunk after the `N`-th is sent. -/
theorem c8_abort_on_failure (ok : Nat → Bool) (text : List Char) (N : Nat)
    (hok : ∀ j, j < N → ok j = true) (hfail : ok N = false)
    (hlen : N < (tgChunks text).length) :
    tgSendHtml ok text = ((tgChunks text).take (N + 1), false) := by
  unfold tgSendHtml
  refine tgSendLoop_fail (tgChunks text) ok 0 N ?_ ?_ hlen
  · intro j hj
    simpa using hok j hj
  · simpa using hfail

theorem tgChunks_replicate_two : 1 < (tgChunks (List.replicate 3501 'a')).length := by
  by_contra h
  push_neg at h
  have hconc : (tgChunks (List.replicate 3501 'a')).flatten =
      List.replicate 3501 'a' := by
    unfold tgChunks
    rw [pyWrap_concat, pyExpandTabs_no_tab]
    intro hmem
    exact absurd (List.eq_of_mem_replicate hmem) (by decide)
  have hlen : ((tgChunks (List.replicate 3501 'a')).flatten).length = 3501 := by
    rw [hconc, List.length_replicate]
  have hb : ∀ x ∈ tgChunks (List.replicate 3501 'a'), x.length ≤ 3500 :=
    pyWrap_len 3500 (by decide) _
  cases hcs : tgChunks (List.replicate 3501 'a') with
  | nil =>
    rw [hcs] at hlen
    simp at hlen
  | cons c rest =>
    cases rest with
    | nil =>
      rw [hcs] at hlen
      simp at hlen
      have hc := hb c (by rw [hcs]; exact List.mem_cons_self c _)
      omega
    | cons d rest2 =>
      rw [hcs] at h
      simp at h

/-- C8 witness: a 3501-character text chunks into two pieces; with the
second POST failing, exactly the two first chunks are attempted and the
run aborts. -/
theorem c8_abort_on_failure_witness :
    tgSendHtml (fun i => i == 0) (List.replicate 3501 'a') =
      ((tgChunks (List.replicate 3501 'a')).take 2, false) :=
  c8_abort_on_failure (fun i => i == 0) (List.replicate 3501 'a') 1
    (by decide) (by decide) tgChunks_replicate_two

/-- C9: `fmt_local` never raises: when the ISO string (after replacing
`"Z"` by `"+00:00"`) fails to parse, the raw input string is returned
unchanged; when it parses to a wall-clock value and offset, the result is
that instant converted to the display zone and formatted
`YYYY-MM-DD HH:MM`. -/
theorem c9_fmt_local_total (tz : PyTz) (s : String) :
    (pyFromIso (String.mk (pyReplaceChar 'Z' "+00:00".data s.data)) =
        Option.none → fmtLocal tz s = s) ∧
    (∀ w o : Int,
      pyFromIso (String.mk (pyReplaceChar 'Z' "+00:00".data s.data)) =
          some (w, o) →
      fmtLocal tz s = strfYMDHM (zoneWall tz (w - o))) := by
  constructor
  · intro h
    simp only [fmtLocal, h]
  · intro w o h
    simp only [fmtLocal, h]

/-- C9 witness: a malformed timestamp is returned unchanged; a valid UTC
timestamp is rendered in the UTC+3 display zone. -/
theorem c9_fmt_local_witness :
    fmtLocal (fun _ => 10800) "not-a-date" = "not-a-date" ∧
    fmtLocal (fun _ => 10800) "2024-01-02T10:00:00Z" = "2024-01-02 13:00" :=
  ⟨(c9_fmt_local_total (fun _ => 10800) "not-a-date").1 (by decide),
   ((c9_fmt_local_total (fun _ => 10800) "2024-01-02T10:00:00Z").2
     1704189600 0 (by decide)).trans (by decide)⟩

/-- C10: `textwrap.wrap` of the empty string is the empty chunk list, so
`tg_send_html` called with empty text issues no request at all, whatever
the endpoint would answer. -/
theorem c10_empty_text :
    tgChunks [] = [] ∧
    ∀ ok : Nat → Bool, tgSendHtml ok [] = ([], true) :=
  ⟨rfl, fun _ => rfl⟩
